import Mathlib

/-!
# Verification of the proto-gen post-processing core

This file gives a shallow embedding, in Lean 4, of the core algorithms of the
`proto-gen` repository and proves properties of them:

* the content sanitizer `hide_doctests` (`proto-gen/src/gen.rs`);
* the module-tree synthesizer and materializer, in both of its historical
  implementations: `Module` (`proto-gen/src/gen.rs`, reference-counted tree)
  and `ModuleContainer` (`proto-gen/src/lib.rs`, enum tree);
* the diff engine `run_diff` / `collect_files` (`proto-gen/src/gen.rs`);
* the commit engine `recurse_copy_clean` / `recurse_copy_over`;
* the key:value argument validators of the two crates
  (`proto-gen/src/kv.rs` counts one split, `proto-gen-cli/src/kv.rs`
  counts colons).

Rust strings are modelled as lists of characters (`CStr`), byte lengths via
`Char.utf8Size`, filesystem paths as lists of path segments, and the
filesystem as a partial map from paths to contents.  Fallible Rust functions
returning `Result<T, String>` are modelled as `Except String T`; a `panic!`
or a failed `assert!` is modelled as an `Except.error` carrying the panic
message, since both are fatal, non-recoverable outcomes.
-/

set_option autoImplicit false
set_option linter.unusedVariables false
set_option maxRecDepth 4000

namespace ProtoGen

/-- A Rust string, modelled as its list of unicode scalar values. -/
abbrev CStr := List Char

/-- A filesystem path, as a list of path segments (components). -/
abbrev FPath := List CStr

/-- The newline character. -/
def nlc : Char := Char.ofNat 10

/-- The carriage-return character. -/
def crc : Char := Char.ofNat 13

/-- The backtick character (code point 96). -/
def btc : Char := Char.ofNat 96

/-- The triple-backtick fence marker. -/
def fenceStr : CStr := [btc, btc, btc]

/-- Unicode `White_Space` property, the semantics of Rust's
`char::is_whitespace`. -/
def rustIsWhitespace (c : Char) : Bool :=
  (0x9 ≤ c.toNat && c.toNat ≤ 0xd) || c.toNat = 0x20 || c.toNat = 0x85 ||
  c.toNat = 0xa0 || c.toNat = 0x1680 ||
  (0x2000 ≤ c.toNat && c.toNat ≤ 0x200a) ||
  c.toNat = 0x2028 || c.toNat = 0x2029 || c.toNat = 0x202f ||
  c.toNat = 0x205f || c.toNat = 0x3000

/-- The UTF-8 byte length of a Rust string, the semantics of `str::len()`. -/
def rustByteLen (s : CStr) : Nat := (s.map Char.utf8Size).sum

/-- Does the string `pre` occur as a prefix of `l`
(Rust `str::starts_with`)? -/
def listStarts : CStr → CStr → Bool
  | [], _ => true
  | _ :: _, [] => false
  | a :: as, b :: bs => a = b && listStarts as bs

/-- Does the string `l` end with `suf` (Rust `str::ends_with`)? -/
def strEndsWith (l suf : CStr) : Bool := listStarts suf.reverse l.reverse

/-- Rust `str::split_once(c)`: split at the first occurrence of the character
`c`, returning the parts before and after it, or `none` if `c` does not
occur. -/
def splitOnceChar (c : Char) : CStr → Option (CStr × CStr)
  | [] => none
  | x :: xs =>
    if x = c then some ([], xs)
    else match splitOnceChar c xs with
      | none => none
      | some (a, b) => some (x :: a, b)

/-- Rust `str::rsplit_once(c)`: split at the last occurrence of `c`. -/
def rsplitOnceChar (c : Char) (l : CStr) : Option (CStr × CStr) :=
  match splitOnceChar c l.reverse with
  | none => none
  | some (a, b) => some (b.reverse, a.reverse)

/-- Rust `str::split_once(pat)` for a string pattern: split at the first
occurrence of `pat`, returning the parts before and after it. -/
def splitOnceStr (pat : CStr) : CStr → Option (CStr × CStr)
  | [] => none
  | x :: xs =>
    if listStarts pat (x :: xs) then some ([], (x :: xs).drop pat.length)
    else match splitOnceStr pat xs with
      | none => none
      | some (a, b) => some (x :: a, b)

/-! ## Rust line iteration

`str::lines()` splits on a line feed, strips one carriage return at the end
of every line that was terminated by a line feed, and yields a final
unterminated line as-is (keeping a bare trailing carriage return). -/

/-- Strip one trailing carriage return, the treatment Rust's `lines()` applies
to every segment that was terminated by a line feed. -/
def stripCR (l : CStr) : CStr := if strEndsWith l [crc] then l.dropLast else l

/-- Worker for `rustLines`: `cur` holds the characters of the current line in
reverse order. -/
def rustLinesAux (cur : CStr) : CStr → List CStr
  | [] => if cur = [] then [] else [cur.reverse]
  | c :: cs =>
    if c = nlc then stripCR cur.reverse :: rustLinesAux [] cs
    else rustLinesAux (c :: cur) cs

/-- The semantics of Rust's `str::lines()`. -/
def rustLines (s : CStr) : List CStr := rustLinesAux [] s

/-- Join a list of logical lines back into a text, terminating every line
with a line feed.  This is how `hide_doctests` re-assembles its output. -/
def joinNl (ls : List CStr) : CStr := ls.foldr (fun l acc => l ++ nlc :: acc) []

/-! ## The content sanitizer (`hide_doctests`, gen.rs lines 575-614) -/

/-- The documentation-comment marker. -/
def tripleSlash : CStr := ['/', '/', '/']

/-- The characters of the word appended to an opening fence. -/
def ignoreStr : CStr := ['i', 'g', 'n', 'o', 'r', 'e']

/-- The synthetic opening fence line injected before an indented example. -/
def openFenceLine : CStr := tripleSlash ++ fenceStr ++ ignoreStr

/-- The synthetic closing fence line injected after an indented example. -/
def closeFenceLine : CStr := tripleSlash ++ fenceStr

/-- The "potentially hostile" trigger of `hide_doctests`: the text after the
comment marker is at least 4 bytes long and its first (up to four)
characters are all whitespace (`rest.len() >= 4 &&
rest.chars().take(4).all(char::is_whitespace)`). -/
def hostileTrigger (rest : CStr) : Bool :=
  4 ≤ rustByteLen rest && (rest.take 4).all rustIsWhitespace

/-- The line-scanning loop of `hide_doctests`, with its two boolean flags
`in_multiline_codeblock` and `in_potentially_hostile_code`.  Mirrors the
source line by line, including the fall-through on a closing fence line and
the `continue` on an opening fence line. -/
def hdLoop : Bool → Bool → List CStr → CStr
  | _, _, [] => []
  | inBlock, inHostile, line :: rest =>
    if strEndsWith line fenceStr && !inBlock then
      line ++ ignoreStr ++ nlc :: hdLoop true inHostile rest
    else
      let inBlock2 := if strEndsWith line fenceStr then false else inBlock
      if inBlock2 then
        line ++ nlc :: hdLoop inBlock2 inHostile rest
      else
        match splitOnceStr tripleSlash line with
        | some (_, r) =>
          if hostileTrigger r then
            if inHostile then line ++ nlc :: hdLoop inBlock2 true rest
            else openFenceLine ++ nlc :: (line ++ nlc :: hdLoop inBlock2 true rest)
          else
            if inHostile then
              closeFenceLine ++ nlc :: (line ++ nlc :: hdLoop inBlock2 false rest)
            else line ++ nlc :: hdLoop inBlock2 false rest
        | none =>
          if inHostile then
            closeFenceLine ++ nlc :: (line ++ nlc :: hdLoop inBlock2 false rest)
          else line ++ nlc :: hdLoop inBlock2 false rest

/-- `hide_doctests` (gen.rs line 575): rewrite generated documentation so
rustdoc does not treat indented comment text or fenced blocks as runnable
examples. -/
def hide_doctests (content : CStr) : CStr := hdLoop false false (rustLines content)

/-- The flag transitions of one `hide_doctests` loop iteration: exactly the
assignments to `in_multiline_codeblock` and `in_potentially_hostile_code`
performed by the branch of `hdLoop` chosen for `line`. -/
def hdStep (st : Bool × Bool) (line : CStr) : Bool × Bool :=
  if strEndsWith line fenceStr && !st.1 then (true, st.2)
  else
    let inBlock2 := if strEndsWith line fenceStr then false else st.1
    if inBlock2 then (inBlock2, st.2)
    else
      match splitOnceStr tripleSlash line with
      | some (_, r) => (inBlock2, hostileTrigger r)
      | none => (inBlock2, false)

/-- The pair of sanitizer flags after scanning a list of lines. -/
def hdState (st : Bool × Bool) (ls : List CStr) : Bool × Bool :=
  ls.foldl hdStep st

/-! ## The module tree of gen.rs (`Module`)

The tree node of `proto-gen/src/gen.rs` line 152: a name, an on-disk
location, a map from child name to child node (the hash map is modelled as a
list of children, each child carrying its own name — the map is unordered in
the source and is sorted by name before any traversal that matters), and an
optional owned generated file.  The filesystem is a partial map from paths
to file contents; directories are not modelled (`create_dir_all` cannot fail
in the model). -/

/-- The filesystem seen by the materializer. -/
abbrev FSf := FPath → Option CStr

/-- Write a file (`fs::write`): create or overwrite. -/
def fsWrite (fs : FSf) (p : FPath) (v : CStr) : FSf :=
  fun q => if q = p then some v else fs q

/-- Delete a file (`fs::remove_file`). -/
def fsRemove (fs : FSf) (p : FPath) : FSf :=
  fun q => if q = p then none else fs q

/-- Read a file (`fs::read_to_string`): fails when the file is absent. -/
def fsRead (fs : FSf) (p : FPath) : Except String CStr :=
  match fs p with
  | some v => Except.ok v
  | none => Except.error "Failed to read created file"

/-- The options of gen.rs `GenOptions` that the materializer consults. -/
structure GenOptions where
  commit : Bool
  prepend_header : Option CStr
  toplevel_attribute : Option CStr

/-- gen.rs line 307 `prepend_header`: insert the optional header at offset 0. -/
def prependHeader (maybe : Option CStr) (content : CStr) : CStr :=
  match maybe with
  | some h => h ++ content
  | none => content

/-- The Rust source-file extension suffix. -/
def rsExt : CStr := ['.', 'r', 's']

/-- The text of one re-export line, `pub mod <name>;` plus newline. -/
def pubModLine (n : CStr) : CStr :=
  ['p', 'u', 'b', ' ', 'm', 'o', 'd', ' '] ++ n ++ [';', nlc]

/-- gen.rs line 298 `proper_file_name`: strip a raw-identifier `r#` before
using a module name as a file name. -/
def properFileName (n : CStr) : CStr :=
  if listStarts ['r', '#'] n then n.drop 2 else n

/-- Byte-wise (equivalently code-point-wise) order on Rust strings, the
order `sort_by(cmp)` uses on module names. -/
def lexLe : CStr → CStr → Bool
  | [], _ => true
  | _ :: _, [] => false
  | a :: as, b :: bs => if a = b then lexLe as bs else decide (a < b)

/-- gen.rs `Module` (line 152). -/
inductive Module where
  | mk (name : CStr) (location : FPath) (children : List Module) (file : Option FPath)

/-- The node's name. -/
def Module.name : Module → CStr
  | .mk n _ _ _ => n

/-- The node's on-disk location (directory that holds it). -/
def Module.location : Module → FPath
  | .mk _ l _ _ => l

/-- The node's children. -/
def Module.children : Module → List Module
  | .mk _ _ c _ => c

/-- The node's owned generated file, if any. -/
def Module.file : Module → Option FPath
  | .mk _ _ _ f => f

/-- Replace the node's child list. -/
def Module.withChildren : Module → List Module → Module
  | .mk n l _ f, c => .mk n l c f

/-- Set the node's owned file. -/
def Module.withFile : Module → Option FPath → Module
  | .mk n l c _, f => .mk n l c f

/-- `children.get(name)` on the modelled hash map. -/
def lookupChild (nm : CStr) (cs : List Module) : Option Module :=
  cs.find? fun c => decide (c.name = nm)

/-- In-place mutation of the child registered under `nm` (the source holds an
`Rc<RefCell<_>>` to it and mutates through the cell). -/
def replaceChild (nm : CStr) (c' : Module) : List Module → List Module
  | [] => []
  | c :: cs => if c.name = nm then c' :: cs else c :: replaceChild nm c' cs

/-- Insertion sort by module name; Rust's `sort_by` with the byte-wise name
comparison (gen.rs lines 144 and 225). -/
def insertSorted (x : Module) : List Module → List Module
  | [] => [x]
  | y :: ys => if lexLe x.name y.name then x :: y :: ys else y :: insertSorted x ys

/-- Sort a child list by name. -/
def sortByName (l : List Module) : List Module := l.foldr insertSorted []

/-- Splitting off the first segment leaves a strictly shorter remainder;
justifies the recursion of `push_recurse` on the package path. -/
theorem splitOnceChar_rest_length {c : Char} :
    ∀ {raw cur rest : CStr}, splitOnceChar c raw = some (cur, rest) →
      rest.length < raw.length := by
  intro raw
  induction raw with
  | nil => intro cur rest h; simp [splitOnceChar] at h
  | cons x xs ih =>
    intro cur rest h
    simp only [splitOnceChar] at h
    by_cases hx : x = c
    · rw [if_pos hx] at h
      cases h
      simp
    · rw [if_neg hx] at h
      cases hsp : splitOnceChar c xs with
      | none => rw [hsp] at h; cases h
      | some p =>
        obtain ⟨a, b⟩ := p
        rw [hsp] at h
        cases h
        exact Nat.lt_trans (ih hsp) (Nat.lt_succ_self _)

/-- gen.rs line 176 `Module::push_recurse`.  The failed
`assert!(old.file.is_none(), "Logic error")` on a duplicate leaf is a Rust
panic; it is modelled as a fatal `Except.error "Logic error"`. -/
def Module.push_recurse (m : Module) (parent : FPath) (path : FPath)
    (raw : CStr) : Except String Module :=
  match hsp : splitOnceChar '.' raw with
  | some (cur, rest) =>
    let newParent := parent ++ [cur]
    match lookupChild cur m.children with
    | some child =>
      match child.push_recurse newParent path rest with
      | Except.error e => Except.error e
      | Except.ok child' =>
        Except.ok (m.withChildren (replaceChild cur child' m.children))
    | none =>
      let md : Module := .mk cur parent [] none
      match md.push_recurse newParent path rest with
      | Except.error e => Except.error e
      | Except.ok md' => Except.ok (m.withChildren (m.children ++ [md']))
  | none =>
    match lookupChild raw m.children with
    | some old =>
      if old.file.isSome then Except.error "Logic error"
      else
        Except.ok (m.withChildren
          (replaceChild raw (old.withFile (some path)) m.children))
    | none =>
      Except.ok (m.withChildren
        (m.children ++ [Module.mk raw parent [] (some path)]))
termination_by raw.length
decreasing_by
  all_goals exact splitOnceChar_rest_length hsp

/-- gen.rs line 161 `Module::push_file`: parse the file name (the path's last
component) by splitting off the extension at the last dot, then push the
dot-separated package path into the tree. -/
def Module.push_file (m : Module) (top_level : FPath) (path : FPath) :
    Except String Module :=
  match path.getLast? with
  | none => Except.error "Failed to get file name of path"
  | some file_name =>
    match rsplitOnceChar '.' file_name with
    | none => Except.error "File path string is not valid utf8"
    | some (nest, _rs) => m.push_recurse top_level path nest

mutual

/-- gen.rs line 214 `Module::dump_to_disk` and its loop over the sorted
children, modelled mutually with explicit recursion fuel (the source
recursion is bounded by the tree depth; every theorem below supplies enough
fuel).  A Rust panic with message Bad code is modelled as a fatal error. -/
def Module.dump_to_disk : Nat → Module → GenOptions → FSf → Except String FSf
  | 0, _, _, _ => Except.error "out of fuel"
  | Nat.succ fuel, m, opts, fs =>
    let step : Except String (Option CStr × FSf) :=
      if m.children.isEmpty then Except.ok (none, fs)
      else
        match dumpChildren fuel (sortByName m.children) opts
            (prependHeader opts.prepend_header []) fs with
        | Except.error e => Except.error e
        | Except.ok (out, fs2) => Except.ok (some out, fs2)
    match step with
    | Except.error e => Except.error e
    | Except.ok (expose, fs2) =>
      match m.file with
      | some file =>
        let file_location := m.location ++ [properFileName m.name ++ rsExt]
        let is_same := decide (file_location = file)
        match expose with
        | some header =>
          match fsRead fs2 file with
          | Except.error e => Except.error e
          | Except.ok file_content =>
            let module_header := header ++ nlc :: file_content
            let clean :=
              prependHeader opts.prepend_header (hide_doctests module_header)
            let fs3 := fsWrite fs2 file_location clean
            Except.ok (if is_same then fs3 else fsRemove fs3 file)
        | none =>
          match fsRead fs2 file with
          | Except.error e => Except.error e
          | Except.ok file_content =>
            let fs3 := fsRemove fs2 file
            let clean :=
              prependHeader opts.prepend_header (hide_doctests file_content)
            Except.ok (fsWrite fs3 file_location clean)
      | none =>
        match expose with
        | some header =>
          Except.ok (fsWrite fs2 (m.location ++ [m.name ++ rsExt]) header)
        | none => Except.error "Bad code"
termination_by fuel m opts fs => (fuel, 0)

/-- The loop body of `dump_to_disk` over the sorted children: append one
re-export line per child and materialize it, threading the filesystem. -/
def dumpChildren : Nat → List Module → GenOptions → CStr → FSf →
    Except String (CStr × FSf)
  | _, [], _, acc, fs => Except.ok (acc, fs)
  | fuel, c :: cs, opts, acc, fs =>
    let acc2 := acc ++ pubModLine c.name
    match Module.dump_to_disk fuel c opts fs with
    | Except.error e => Except.error e
    | Except.ok fs2 => dumpChildren fuel cs opts acc2 fs2
termination_by fuel cs opts acc fs => (fuel, cs.length + 1)

end

/-- Look a path up in the filesystem a materializer run returned; a failed
run holds no file. -/
def exceptFS (r : Except String FSf) (p : FPath) : Option CStr :=
  match r with
  | Except.ok fs => fs p
  | Except.error _ => none

/-! ## The module tree of lib.rs (`ModuleContainer`)

The older enum tree of `proto-gen/src/lib.rs` line 137: a `Parent` holds a
name, a location and children; a `Node` is a leaf owning one generated
file. -/

/-- lib.rs `ModuleContainer` (line 137). -/
inductive ModuleContainer where
  | parent (name : CStr) (location : FPath) (children : List ModuleContainer)
  | node (name : CStr) (location : FPath) (file : FPath)

/-- lib.rs line 258 `get_name`. -/
def ModuleContainer.name : ModuleContainer → CStr
  | .parent n _ _ => n
  | .node n _ _ => n

/-- `HashMap::insert` on the modelled child map: replace the entry with the
given name when present, add it otherwise. -/
def mcInsert (nm : CStr) (v : ModuleContainer) :
    List ModuleContainer → List ModuleContainer
  | [] => [v]
  | c :: cs => if c.name = nm then v :: cs else c :: mcInsert nm v cs

/-- lib.rs line 167 `ModuleContainer::push_recurse`.  Note the leaf case
(`raw_name` has no dot) inserts a `Node` with `HashMap::insert`, which
replaces any existing child of that name. -/
def ModuleContainer.push_recurse (m : ModuleContainer) (parent : FPath)
    (path : FPath) (raw : CStr) : Except String ModuleContainer :=
  match hsp : splitOnceChar '.' raw with
  | some (cur, rest) =>
    match m with
    | .parent nm loc children =>
      let new_parent := parent ++ [cur]
      match children.find? (fun c => decide (c.name = cur)) with
      | some child =>
        match child.push_recurse new_parent path rest with
        | Except.error e => Except.error e
        | Except.ok child' =>
          Except.ok (.parent nm loc (mcInsert cur child' children))
      | none =>
        let md : ModuleContainer := .parent cur parent []
        match md.push_recurse new_parent path rest with
        | Except.error e => Except.error e
        | Except.ok md' => Except.ok (.parent nm loc (mcInsert cur md' children))
    | .node _ _ _ => Except.error "Tried to push a child on a node"
  | none =>
    match m with
    | .parent nm loc children =>
      Except.ok (.parent nm loc (mcInsert raw (.node raw parent path) children))
    | .node _ _ _ => Except.error "Raw name did not belong to a parent node"
termination_by raw.length
decreasing_by
  all_goals exact splitOnceChar_rest_length hsp

/-- lib.rs line 152 `ModuleContainer::push_file`. -/
def ModuleContainer.push_file (m : ModuleContainer) (top_level : FPath)
    (path : FPath) : Except String ModuleContainer :=
  match path.getLast? with
  | none => Except.error "Failed to get file name of path"
  | some file_name =>
    match rsplitOnceChar '.' file_name with
    | none => Except.error "File path string is not valid utf8"
    | some (nest, _rs) => m.push_recurse top_level path nest

/-! ## The diff engine (gen.rs `run_diff`, lines 324-388)

`collect_files` returns the set of file paths of a tree, each relative to
the root-marker segment; `run_diff` then reads and byte-compares contents.
The model carries each collected tree as an association list from relative
path to the content that a read of that path returns; the hash set of the
source makes the iteration order arbitrary, which the order-independence
theorem below accounts for. -/

/-- A collected directory tree: relative file path, and the byte content a
read of the file returns. -/
abbrev DirTree := List (FPath × CStr)

/-- `HashSet::remove`: take the entry with the given path out of the
not-yet-matched old set, returning its content and the rest. -/
def removeFirst (p : FPath) : DirTree → Option (CStr × DirTree)
  | [] => none
  | (q, c) :: rest =>
    if q = p then some (c, rest)
    else
      match removeFirst p rest with
      | none => none
      | some (c', rest') => some (c', (q, c) :: rest')

/-- The first loop of `run_diff` (gen.rs line 344): for every file of the new
tree, count 1 when it is new or its bytes differ from the old tree's file,
removing matched files from the old set; returns the count and the leftover
old files. -/
def diffFiles : DirTree → DirTree → Nat × DirTree
  | orig, [] => (0, orig)
  | orig, (p, c) :: rest =>
    match removeFirst p orig with
    | some (oc, orig') =>
      let r := diffFiles orig' rest
      ((if oc = c then 0 else 1) + r.1, r.2)
    | none =>
      let r := diffFiles orig rest
      (1 + r.1, r.2)

/-- Look a relative path up in a collected tree (first match). -/
def treeLookup (p : FPath) : DirTree → Option CStr
  | [] => none
  | (q, c) :: rest => if q = p then some c else treeLookup p rest

/-- gen.rs line 324 `run_diff`: the file-by-file count, plus one when the old
top-level module file is missing (`ErrorKind::NotFound`) or its bytes differ
from the new index text, plus one per file left only in the old tree. -/
def run_diff (orig new : DirTree) (old_mod : Option CStr) (new_mod : CStr) :
    Nat :=
  let r := diffFiles orig new
  r.1 +
    (match old_mod with
     | some content => if content = new_mod then 0 else 1
     | none => 1) +
    r.2.length

/-- A filesystem tree entry: a regular file with contents, or a directory with
entries (the order of `read_dir` is whatever order the entries are stored
in). -/
inductive FsEntry where
  | file (name : CStr) (content : CStr)
  | dir (name : CStr) (entries : List FsEntry)

/-- The worker of `path_from_starts_with`: scan the reversed components,
collecting until one starts with the root marker. -/
def pfswGo (root : CStr) : FPath → FPath → Except String FPath
  | [], _ => Except.error "Failed to trim path up to root"
  | comp :: rest, acc =>
    if listStarts root comp then Except.ok acc.reverse
    else pfswGo root rest (acc ++ [comp])

/-- gen.rs line 488 `path_from_starts_with`: walk the path's components from
the end, drop everything up to (and including) the last component that
starts with the root marker, and fail when no component does. -/
def path_from_starts_with (root : CStr) (path : FPath) : Except String FPath :=
  pfswGo root path.reverse []

mutual

/-- Collect the relative paths of the files below one entry of a walked
tree; `base` is the absolute path of the directory holding the entry. -/
def collectEntry (root : CStr) (base : FPath) : FsEntry → Except String (List FPath)
  | .file n _ =>
    match path_from_starts_with root (base ++ [n]) with
    | Except.error e => Except.error e
    | Except.ok pb => Except.ok [pb]
  | .dir n es => collectEntries root (base ++ [n]) es

/-- Collect over a directory's entry list. -/
def collectEntries (root : CStr) (base : FPath) :
    List FsEntry → Except String (List FPath)
  | [] => Except.ok []
  | e :: rest =>
    match collectEntry root base e with
    | Except.error err => Except.error err
    | Except.ok a =>
      match collectEntries root base rest with
      | Except.error err => Except.error err
      | Except.ok b => Except.ok (a ++ b)

end

/-- gen.rs line 390 `collect_files`: gather every regular file under
`source_abs` relative to the root marker.  A directory that does not exist
(`read_dir` fails with `ErrorKind::NotFound`, modelled by `none`) yields the
empty set rather than an error. -/
def collect_files (root : CStr) (source_abs : FPath)
    (rd : Option (List FsEntry)) : Except String (List FPath) :=
  match rd with
  | none => Except.ok []
  | some entries => collectEntries root source_abs entries

/-! ## The commit engine (gen.rs `recurse_copy_clean` / `recurse_copy_over`)

The engine's effect is modelled as the sequence of filesystem operations it
performs, in order. -/

/-- One filesystem operation of the commit engine. -/
inductive FsOp where
  | removeDirAll (p : FPath)
  | createDir (p : FPath)
  | mkdirAll (p : FPath)
  | copyFile (dst : FPath) (content : CStr)
  | writeFile (p : FPath) (content : CStr)

mutual

/-- gen.rs line 454 `recurse_copy_over`: copy one entry below `dest_top`,
keeping its name; directories are created and their entries copied
recursively. -/
def recurse_copy_over (dest_top : FPath) : FsEntry → List FsOp
  | .file n c => [FsOp.copyFile (dest_top ++ [n]) c]
  | .dir n es => FsOp.mkdirAll (dest_top ++ [n]) :: copyOverList (dest_top ++ [n]) es

/-- The loop over a directory's entries in `recurse_copy_over`. -/
def copyOverList (dest_top : FPath) : List FsEntry → List FsOp
  | [] => []
  | e :: rest => recurse_copy_over dest_top e ++ copyOverList dest_top rest

end

/-- gen.rs line 419 `recurse_copy_clean`: when the destination exists, remove
it recursively and recreate it empty; when it does not, create it; then copy
every entry of the source tree into it. -/
def recurse_copy_clean (src_entries : List FsEntry) (dest_exists : Bool)
    (dest : FPath) : List FsOp :=
  (if dest_exists then [FsOp.removeDirAll dest, FsOp.createDir dest]
   else [FsOp.mkdirAll dest]) ++
  copyOverList dest src_entries

mutual

/-- The files below one entry, as (relative path, content) pairs. -/
def filesOfEntry : FsEntry → List (FPath × CStr)
  | .file n c => [([n], c)]
  | .dir n es => (filesOfList es).map fun pc => (n :: pc.1, pc.2)

/-- The files below a list of entries. -/
def filesOfList : List FsEntry → List (FPath × CStr)
  | [] => []
  | e :: rest => filesOfEntry e ++ filesOfList rest

end

mutual

/-- The directories below one entry (relative paths). -/
def dirsOfEntry : FsEntry → List FPath
  | .file _ _ => []
  | .dir n es => [n] :: (dirsOfList es).map fun p => n :: p

/-- The directories below a list of entries. -/
def dirsOfList : List FsEntry → List FPath
  | [] => []
  | e :: rest => dirsOfEntry e ++ dirsOfList rest

end

/-- The file writes an operation sequence performs, in order. -/
def copyWrites : List FsOp → List (FPath × CStr)
  | [] => []
  | FsOp.copyFile d c :: rest => (d, c) :: copyWrites rest
  | _ :: rest => copyWrites rest

/-- The directories an operation sequence creates, in order. -/
def copyDirs : List FsOp → List FPath
  | [] => []
  | FsOp.mkdirAll d :: rest => d :: copyDirs rest
  | _ :: rest => copyDirs rest

/-- The post-diff tail of gen.rs `run_generation` (lines 38-57): with the
diff count in hand, do nothing at count 0; fail carrying the count when
differences exist and commit was not requested; when commit was requested,
run the commit engine (`recurse_copy_clean` into the output directory) and
write the top-level module file beside the output directory.  The returned
operation list is everything the run does to the committed output from this
point on. -/
def run_generation_tail (diff : Nat) (gen_commit : Bool) (old : FPath)
    (new_entries : List FsEntry) (old_exists : Bool)
    (top_mod_content : CStr) : Except String (List FsOp) :=
  if 0 < diff then
    if gen_commit then
      match old.getLast? with
      | none => Except.error "Failed to get file_name of path"
      | some out_top_name =>
        Except.ok
          (recurse_copy_clean new_entries old_exists old ++
            [FsOp.writeFile (old.dropLast ++ [out_top_name ++ rsExt])
              top_mod_content])
    else Except.error ("Found " ++ toString diff ++ " diffs")
  else Except.ok []

/-! ## The key:value argument validators

`proto-gen/src/kv.rs` splits at the first colon and only fails when there is
none; `proto-gen-cli/src/kv.rs` requires exactly one colon.  The `OsStr`
argument is modelled as `Option CStr`: `none` stands for a value that is not
valid UTF-8 (where `to_str` fails). -/

/-- `KvValueParser::parse_ref` of `proto-gen/src/kv.rs` (line 11). -/
def parse_ref_gen : Option CStr → Except String (CStr × CStr)
  | none => Except.error "Both key and value of KV-pair must be valid UTF-8."
  | some s =>
    match splitOnceChar ':' s with
    | some (k, v) => Except.ok (k, v)
    | none => Except.error "KV-pair must contain at least one separator."

/-- `KvValueParser::parse_ref` of `proto-gen-cli/src/kv.rs` (line 11). -/
def parse_ref_cli : Option CStr → Except String (CStr × CStr)
  | none => Except.error "Both key and value of KV-pair must be valid UTF-8."
  | some s =>
    if s.count ':' ≠ 1 then
      Except.error "KV-pair must contain exactly one separator."
    else
      match splitOnceChar ':' s with
      | some (k, v) => Except.ok (k, v)
      | none => Except.error "unreachable: a colon was counted"

/-! ## Spec-side formulations of the sanitizer

`sanitizeMachine` is the two-flag line machine as the specification narrates
it, written as a left fold with an explicit state, parameterized by the
indentation trigger.  `claimTrigger` is the trigger as the claim words it
(content BEGINS WITH four or more whitespace CHARACTERS); the code's
trigger `hostileTrigger` instead tests the BYTE length. -/

/-- Modelled from the spec: the claim's trigger, a documentation comment
whose content begins with four or more whitespace characters. -/
def claimTrigger (r : CStr) : Bool :=
  decide (4 ≤ r.length) && (r.take 4).all rustIsWhitespace

/-- One step of the narrated state machine: state is (in fenced block,
in indented example) plus the output accumulated so far. -/
def specMachineStep (trigger : CStr → Bool) (p : (Bool × Bool) × CStr)
    (line : CStr) : (Bool × Bool) × CStr :=
  let inBlock := p.1.1
  let inHostile := p.1.2
  if decide (fenceStr <:+ line) && !inBlock then
    ((true, inHostile), p.2 ++ line ++ ignoreStr ++ [nlc])
  else
    let inBlock2 := if decide (fenceStr <:+ line) then false else inBlock
    if inBlock2 then ((inBlock2, inHostile), p.2 ++ line ++ [nlc])
    else
      match splitOnceStr tripleSlash line with
      | some (_, r) =>
        if trigger r then
          ((inBlock2, true),
            p.2 ++ (if inHostile then [] else openFenceLine ++ [nlc]) ++
              line ++ [nlc])
        else
          ((inBlock2, false),
            p.2 ++ (if inHostile then closeFenceLine ++ [nlc] else []) ++
              line ++ [nlc])
      | none =>
        ((inBlock2, false),
          p.2 ++ (if inHostile then closeFenceLine ++ [nlc] else []) ++
            line ++ [nlc])

/-- The narrated sanitizer: fold the machine over the logical lines. -/
def sanitizeMachine (trigger : CStr → Bool) (content : CStr) : CStr :=
  ((rustLines content).foldl (specMachineStep trigger) ((false, false), [])).2

/-- Modelled from the spec: the sanitizer exactly as the claim states it,
with the character-counting trigger. -/
def sanitize_spec_claim (content : CStr) : CStr :=
  sanitizeMachine claimTrigger content

/-- The sanitizer as the amended claim states it: same narration, with the
code's byte-length trigger. -/
def sanitize_spec_amended (content : CStr) : CStr :=
  sanitizeMachine hostileTrigger content

/-! ## Line predicates used by the sanitizer theorems -/

/-- A line that moves no sanitizer flag: it does not end in a fence and, if
it is a documentation comment, its content does not meet the indentation
trigger. -/
def lineInert (l : CStr) : Bool :=
  !(strEndsWith l fenceStr) &&
    (match splitOnceStr tripleSlash l with
     | some (_, r) => !(hostileTrigger r)
     | none => true)

/-- A line that (outside a fenced block) triggers the indented-example
state. -/
def lineTriggers (l : CStr) : Bool :=
  !(strEndsWith l fenceStr) &&
    (match splitOnceStr tripleSlash l with
     | some (_, r) => hostileTrigger r
     | none => false)

/-- A line that survives the split-join round trip: no embedded line feed
and no trailing carriage return. -/
def lineClean (l : CStr) : Bool := decide (nlc ∉ l) && !(strEndsWith l [crc])

/-- Does the text contain a carriage return immediately followed by a line
feed? -/
def hasCRLF : CStr → Bool
  | c1 :: c2 :: rest => (decide (c1 = crc) && decide (c2 = nlc)) || hasCRLF (c2 :: rest)
  | _ => false

/-! ## Part 2: theorems -/

@[simp] theorem splitOnceChar_nil (c : Char) : splitOnceChar c [] = none := rfl

theorem splitOnceChar_not_mem {c : Char} {l : CStr} (h : c ∉ l) :
    splitOnceChar c l = none := by
  induction l with
  | nil => rfl
  | cons x xs ih =>
    simp only [List.mem_cons, not_or] at h
    simp only [splitOnceChar, if_neg (fun hxc : x = c => h.1 hxc.symm), ih h.2]

theorem splitOnceChar_append_cons {c : Char} {a : CStr} (b : CStr)
    (h : c ∉ a) : splitOnceChar c (a ++ c :: b) = some (a, b) := by
  induction a with
  | nil => simp [splitOnceChar]
  | cons x xs ih =>
    simp only [List.mem_cons, not_or] at h
    simp only [List.cons_append, splitOnceChar,
      if_neg (fun hxc : x = c => h.1 hxc.symm), List.append_eq, ih h.2]

example : hide_doctests ['a', 'b'] = ['a', 'b', nlc] := by decide

example :
    hide_doctests (['/', '/', '/', ' ', ' ', ' ', ' ', 'x', nlc]) =
      openFenceLine ++ nlc :: (['/', '/', '/', ' ', ' ', ' ', ' ', 'x'] ++ [nlc]) := by
  decide

/-! ### C3: the sanitizer state machine -/

theorem listStarts_iff {p q : CStr} : listStarts p q = true ↔ p <+: q := by
  induction p generalizing q with
  | nil => simp [listStarts]
  | cons a as ih =>
    cases q with
    | nil =>
      simp [listStarts]
    | cons b bs =>
      simp [listStarts, List.cons_prefix_cons, ih]

theorem strEndsWith_iff {l s : CStr} : strEndsWith l s = true ↔ s <:+ l := by
  rw [strEndsWith, listStarts_iff, List.reverse_prefix]

theorem strEndsWith_eq_decide (l s : CStr) :
    strEndsWith l s = decide (s <:+ l) := by
  by_cases h : s <:+ l
  · simp [h, strEndsWith_iff.mpr h]
  · have hne : strEndsWith l s ≠ true := fun hc => h (strEndsWith_iff.mp hc)
    simp [h, Bool.eq_false_iff.mpr hne]

theorem foldl_machine_eq (ls : List CStr) :
    ∀ (b h : Bool) (acc : CStr),
      (ls.foldl (specMachineStep hostileTrigger) ((b, h), acc)).2 =
        acc ++ hdLoop b h ls := by
  induction ls with
  | nil =>
    intro b h acc
    simp [hdLoop]
  | cons line rest ih =>
    intro b h acc
    rw [List.foldl_cons]
    have hdec : decide (fenceStr <:+ line) = strEndsWith line fenceStr :=
      (strEndsWith_eq_decide line fenceStr).symm
    cases hfb : strEndsWith line fenceStr with
    | true =>
      cases b with
      | false =>
        simp only [specMachineStep, hdLoop, hdec, hfb, Bool.not_false,
          Bool.and_true, if_true, ih, List.append_assoc, List.cons_append,
          List.nil_append]
      | true =>
        cases hsp : splitOnceStr tripleSlash line with
        | some p =>
          obtain ⟨pre, r⟩ := p
          cases ht : hostileTrigger r with
          | true =>
            cases h <;>
              simp only [specMachineStep, hdLoop, hdec, hfb, hsp, ht,
                Bool.not_true, Bool.and_false, if_false, if_true,
                Bool.false_eq_true, ite_false, ite_true, ih,
                List.append_assoc, List.cons_append, List.nil_append,
                List.append_nil]
          | false =>
            cases h <;>
              simp only [specMachineStep, hdLoop, hdec, hfb, hsp, ht,
                Bool.not_true, Bool.and_false, if_false, if_true,
                Bool.false_eq_true, ite_false, ite_true, ih,
                List.append_assoc, List.cons_append, List.nil_append,
                List.append_nil]
        | none =>
          cases h <;>
            simp only [specMachineStep, hdLoop, hdec, hfb, hsp,
              Bool.not_true, Bool.and_false, if_false, if_true,
              Bool.false_eq_true, ite_false, ite_true, ih,
              List.append_assoc, List.cons_append, List.nil_append,
              List.append_nil]
    | false =>
      cases b with
      | true =>
        simp only [specMachineStep, hdLoop, hdec, hfb, Bool.not_true,
          Bool.false_and, if_false, if_true, Bool.false_eq_true, ite_false,
          ite_true, ih, List.append_assoc, List.cons_append, List.nil_append]
      | false =>
        cases hsp : splitOnceStr tripleSlash line with
        | some p =>
          obtain ⟨pre, r⟩ := p
          cases ht : hostileTrigger r with
          | true =>
            cases h <;>
              simp only [specMachineStep, hdLoop, hdec, hfb, hsp, ht,
                Bool.not_false, Bool.false_and, Bool.and_true, if_false,
                if_true, Bool.false_eq_true, ite_false, ite_true, ih,
                List.append_assoc, List.cons_append, List.nil_append,
                List.append_nil]
          | false =>
            cases h <;>
              simp only [specMachineStep, hdLoop, hdec, hfb, hsp, ht,
                Bool.not_false, Bool.false_and, Bool.and_true, if_false,
                if_true, Bool.false_eq_true, ite_false, ite_true, ih,
                List.append_assoc, List.cons_append, List.nil_append,
                List.append_nil]
        | none =>
          cases h <;>
            simp only [specMachineStep, hdLoop, hdec, hfb, hsp,
              Bool.not_false, Bool.false_and, Bool.and_true, if_false,
              if_true, Bool.false_eq_true, ite_false, ite_true, ih,
              List.append_assoc, List.cons_append, List.nil_append,
              List.append_nil]

/-- C3 (counterexample).  The claim's trigger reads "begins with four or
more whitespace characters"; the code triggers on a comment whose content is
two no-break spaces (4 bytes, but only 2 whitespace characters), so the
sanitizer differs from the claim's machine on that line. -/
theorem hide_doctests_ne_claim_machine :
    hide_doctests (tripleSlash ++ [Char.ofNat 160, Char.ofNat 160]) ≠
      sanitize_spec_claim (tripleSlash ++ [Char.ofNat 160, Char.ofNat 160]) := by
  decide

/-- C3 (amended).  The sanitizer is exactly the narrated two-flag line
machine — fence lines toggle the block flag and are tagged on entry, the
indented-example state opens with an injected tagged fence and closes with
an injected closing fence before the first non-qualifying line outside a
fenced block — with the trigger corrected to the code's test: the content
after the comment marker is at least four BYTES long and its first (up to
four) CHARACTERS are all whitespace. -/
theorem hide_doctests_eq_amended_machine (content : CStr) :
    hide_doctests content = sanitize_spec_amended content := by
  rw [hide_doctests, sanitize_spec_amended, sanitizeMachine,
    foldl_machine_eq (rustLines content) false false []]
  rfl

/-! ### C4: the diff-stage control flow of `run_generation` -/

/-- C4.  For every run reaching the diff stage: a diff count of 0 succeeds
and performs no operation on the committed output (the commit engine is not
invoked); a positive count without commit fails with an error carrying the
count; a positive count with commit runs the commit engine and then writes
the top-level module file beside the output directory. -/
theorem run_generation_diff_stage (diff : Nat) (gen_commit : Bool)
    (old : FPath) (new_entries : List FsEntry) (old_exists : Bool)
    (top : CStr) :
    (diff = 0 →
      run_generation_tail diff gen_commit old new_entries old_exists top =
        Except.ok []) ∧
    (0 < diff → gen_commit = false →
      run_generation_tail diff gen_commit old new_entries old_exists top =
        Except.error ("Found " ++ toString diff ++ " diffs")) ∧
    (0 < diff → gen_commit = true → ∀ nm, old.getLast? = some nm →
      run_generation_tail diff gen_commit old new_entries old_exists top =
        Except.ok (recurse_copy_clean new_entries old_exists old ++
          [FsOp.writeFile (old.dropLast ++ [nm ++ rsExt]) top])) := by
  refine ⟨?_, ?_, ?_⟩
  · intro h
    simp [run_generation_tail, h]
  · intro h1 h2
    simp [run_generation_tail, h1, h2]
  · intro h1 h2 nm hnm
    simp [run_generation_tail, h1, h2, hnm]

/-- Witness for C4: a concrete committing run with diff count 1. -/
theorem run_generation_diff_stage_witness :
    run_generation_tail 1 true [['o']] [] false [] =
      Except.ok (recurse_copy_clean [] false [['o']] ++
        [FsOp.writeFile ([['o']].dropLast ++ [['o'] ++ rsExt]) []]) :=
  (run_generation_diff_stage 1 true [['o']] [] false []).2.2
    (by decide) rfl ['o'] rfl

/-! ### C9: key:value validation, and C7: a missing old tree -/

theorem splitOnceChar_eq_none_iff {c : Char} {s : CStr} :
    splitOnceChar c s = none ↔ c ∉ s := by
  induction s with
  | nil => simp
  | cons x xs ih =>
    simp only [splitOnceChar, List.mem_cons]
    by_cases hx : x = c
    · simp [hx]
    · rw [if_neg hx]
      cases hsp : splitOnceChar c xs with
      | none =>
        have hnm : c ∉ xs := ih.mp hsp
        simp only [hsp]
        constructor
        · intro _ hor
          rcases hor with hce | hcm
          · exact hx hce.symm
          · exact hnm hcm
        · intro _
          trivial
      | some p =>
        obtain ⟨a, b⟩ := p
        have hm : c ∈ xs := by
          by_contra hnm
          rw [ih.mpr hnm] at hsp
          cases hsp
        simp [hsp, hm]

/-- C9 (counterexample).  The claim says a pair is accepted exactly when it
has exactly one colon; the parser of `proto-gen/src/kv.rs` accepts
"a:b:c", which has two colons, splitting at the first. -/
theorem parse_ref_gen_accepts_two_colons :
    parse_ref_gen (some ['a', ':', 'b', ':', 'c']) =
      Except.ok (['a'], ['b', ':', 'c']) ∧
    (['a', ':', 'b', ':', 'c'] : CStr).count ':' = 2 := by
  constructor
  · rfl
  · decide

/-- C9 (amended).  The cli crate's validator accepts a value exactly when it
is valid UTF-8 with exactly one colon; the proto-gen crate's validator
accepts a value exactly when it is valid UTF-8 with at least one colon,
splitting at the first.  Either way a malformed pair is a value-validation
(usage) error. -/
theorem kv_acceptance (os : Option CStr) :
    (parse_ref_cli os).isOk =
      (match os with
       | none => false
       | some s => decide (s.count ':' = 1)) ∧
    (parse_ref_gen os).isOk =
      (match os with
       | none => false
       | some s => decide (1 ≤ s.count ':')) := by
  cases os with
  | none => exact ⟨rfl, rfl⟩
  | some s =>
    constructor
    · by_cases h1 : s.count ':' = 1
      · have hmem : ':' ∈ s := by
          have := List.count_eq_zero (a := ':') (l := s)
          by_contra hn
          rw [this.mpr hn] at h1
          cases h1
        have hsp : splitOnceChar ':' s ≠ none := by
          intro hn
          exact (splitOnceChar_eq_none_iff.mp hn) hmem
        cases hv : splitOnceChar ':' s with
        | none => exact absurd hv hsp
        | some p =>
          obtain ⟨k, v⟩ := p
          simp [parse_ref_cli, h1, hv, Except.isOk, Except.toBool]
      · simp [parse_ref_cli, h1, Except.isOk, Except.toBool]
    · by_cases h1 : 1 ≤ s.count ':'
      · have hmem : ':' ∈ s := by
          have := List.count_eq_zero (a := ':') (l := s)
          by_contra hn
          rw [this.mpr hn] at h1
          omega
        have hsp : splitOnceChar ':' s ≠ none := by
          intro hn
          exact (splitOnceChar_eq_none_iff.mp hn) hmem
        cases hv : splitOnceChar ':' s with
        | none => exact absurd hv hsp
        | some p =>
          obtain ⟨k, v⟩ := p
          simp [parse_ref_gen, h1, hv, Except.isOk, Except.toBool]
      · have hnm : ':' ∉ s := by
          intro hm
          rcases Nat.eq_zero_or_pos (s.count ':') with hz | hp
          · exact (List.count_eq_zero.mp hz) hm
          · exact h1 hp
        simp [parse_ref_gen, splitOnceChar_eq_none_iff.mpr hnm, h1,
          Except.isOk, Except.toBool]

/-! ### C5: the commit engine -/

theorem copyWrites_append (a b : List FsOp) :
    copyWrites (a ++ b) = copyWrites a ++ copyWrites b := by
  induction a with
  | nil => rfl
  | cons op rest ih => cases op <;> simp [copyWrites, ih]

theorem copyDirs_append (a b : List FsOp) :
    copyDirs (a ++ b) = copyDirs a ++ copyDirs b := by
  induction a with
  | nil => rfl
  | cons op rest ih => cases op <;> simp [copyDirs, ih]

mutual

theorem copyWrites_entry (dest : FPath) (e : FsEntry) :
    copyWrites (recurse_copy_over dest e) =
      (filesOfEntry e).map fun pc => (dest ++ pc.1, pc.2) := by
  cases e with
  | file n c => rfl
  | dir n es =>
    show copyWrites (FsOp.mkdirAll (dest ++ [n]) :: copyOverList (dest ++ [n]) es) = _
    rw [show copyWrites (FsOp.mkdirAll (dest ++ [n]) :: copyOverList (dest ++ [n]) es) =
      copyWrites (copyOverList (dest ++ [n]) es) from rfl]
    rw [copyWrites_list (dest ++ [n]) es]
    simp [filesOfEntry, Function.comp]

theorem copyWrites_list (dest : FPath) (es : List FsEntry) :
    copyWrites (copyOverList dest es) =
      (filesOfList es).map fun pc => (dest ++ pc.1, pc.2) := by
  cases es with
  | nil => rfl
  | cons e rest =>
    show copyWrites (recurse_copy_over dest e ++ copyOverList dest rest) = _
    rw [copyWrites_append, copyWrites_entry dest e, copyWrites_list dest rest]
    simp [filesOfList]

end

mutual

theorem copyDirs_entry (dest : FPath) (e : FsEntry) :
    copyDirs (recurse_copy_over dest e) =
      (dirsOfEntry e).map fun p => dest ++ p := by
  cases e with
  | file n c => rfl
  | dir n es =>
    show copyDirs (FsOp.mkdirAll (dest ++ [n]) :: copyOverList (dest ++ [n]) es) = _
    rw [show copyDirs (FsOp.mkdirAll (dest ++ [n]) :: copyOverList (dest ++ [n]) es) =
      (dest ++ [n]) :: copyDirs (copyOverList (dest ++ [n]) es)
      from rfl]
    rw [copyDirs_list (dest ++ [n]) es]
    simp [dirsOfEntry, copyDirs, Function.comp]

theorem copyDirs_list (dest : FPath) (es : List FsEntry) :
    copyDirs (copyOverList dest es) =
      (dirsOfList es).map fun p => dest ++ p := by
  cases es with
  | nil => rfl
  | cons e rest =>
    show copyDirs (recurse_copy_over dest e ++ copyOverList dest rest) = _
    rw [copyDirs_append, copyDirs_entry dest e, copyDirs_list dest rest]
    simp [dirsOfList]

end

/-- C5.  A commit into an existing destination first removes it recursively
and recreates it empty (a fresh destination is simply created); the copy
then writes exactly the candidate tree's files at the destination,
preserving every relative path, and creates exactly its directories; and the
committing run ends by writing the top-level index text to the sibling file
named after the destination with the language suffix. -/
theorem commit_engine_spec (src : List FsEntry) (dest : FPath)
    (dest_exists : Bool) :
    (dest_exists = true →
      recurse_copy_clean src dest_exists dest =
        FsOp.removeDirAll dest :: FsOp.createDir dest ::
          copyOverList dest src) ∧
    (dest_exists = false →
      recurse_copy_clean src dest_exists dest =
        FsOp.mkdirAll dest :: copyOverList dest src) ∧
    copyWrites (copyOverList dest src) =
      (filesOfList src).map (fun pc => (dest ++ pc.1, pc.2)) ∧
    copyDirs (copyOverList dest src) =
      (dirsOfList src).map (fun p => dest ++ p) ∧
    (∀ nm top diff, dest.getLast? = some nm → 0 < diff →
      ∀ old_exists : Bool,
        run_generation_tail diff true dest src old_exists top =
          Except.ok (recurse_copy_clean src old_exists dest ++
            [FsOp.writeFile (dest.dropLast ++ [nm ++ rsExt]) top])) := by
  refine ⟨?_, ?_, copyWrites_list dest src, copyDirs_list dest src, ?_⟩
  · intro h
    simp [recurse_copy_clean, h]
  · intro h
    simp [recurse_copy_clean, h]
  · intro nm top diff hnm hdiff old_exists
    simp [run_generation_tail, hdiff, hnm]

/-- Witness for C5: a concrete commit of a one-file, one-directory candidate
tree over an existing destination. -/
theorem commit_engine_spec_witness :
    recurse_copy_clean [FsEntry.file ['f'] ['x'],
        FsEntry.dir ['d'] [FsEntry.file ['g'] ['y']]] true [['o']] =
      FsOp.removeDirAll [['o']] :: FsOp.createDir [['o']] ::
        copyOverList [['o']] [FsEntry.file ['f'] ['x'],
          FsEntry.dir ['d'] [FsEntry.file ['g'] ['y']]] :=
  (commit_engine_spec [FsEntry.file ['f'] ['x'],
    FsEntry.dir ['d'] [FsEntry.file ['g'] ['y']]] [['o']] true).1 rfl

/-! ### C6: duplicate leaf registration -/

/-- C6 (counterexample).  The claim says a second registration of a leaf
under an already-leaf-bearing name is a fatal error and never silently
replaces a file; the `ModuleContainer` implementation of lib.rs accepts the
second registration and replaces the first leaf's file. -/
theorem mc_duplicate_leaf_silent_replace :
    ((ModuleContainer.parent ['d'] [] []).push_recurse [] [['f', '1']] ['a']).bind
      (fun t1 => t1.push_recurse [] [['f', '2']] ['a']) =
      Except.ok (ModuleContainer.parent ['d'] []
        [ModuleContainer.node ['a'] [] [['f', '2']]]) := by
  simp [ModuleContainer.push_recurse, splitOnceChar, mcInsert,
    ModuleContainer.name, Except.bind]

/-- C6 (amended).  A second leaf registration under an already-leaf-bearing
name is a fatal logic error in the gen.rs `Module` implementation (a failed
assertion, i.e. a panic); the lib.rs `ModuleContainer` implementation
instead accepts it, silently replacing the earlier leaf's file with the new
one. -/
theorem duplicate_leaf_fatal_vs_replace
    (parentPath path : FPath) (raw : CStr) (hdot : '.' ∉ raw) :
    (∀ (m : Module) (c : Module), lookupChild raw m.children = some c →
      c.file.isSome →
      m.push_recurse parentPath path raw = Except.error "Logic error") ∧
    (∀ (nm : CStr) (loc : FPath) (children : List ModuleContainer),
      (ModuleContainer.parent nm loc children).push_recurse parentPath path raw =
        Except.ok (ModuleContainer.parent nm loc
          (mcInsert raw (ModuleContainer.node raw parentPath path) children))) := by
  have hnone : splitOnceChar '.' raw = none := splitOnceChar_not_mem hdot
  constructor
  · intro m c hlook hfile
    rw [Module.push_recurse]
    simp only [hlook, hfile]
    split
    · rename_i cur rest hsp
      rw [hnone] at hsp
      cases hsp
    · rfl
  · intro nm loc children
    rw [ModuleContainer.push_recurse]
    split
    · rename_i cur rest hsp
      rw [hnone] at hsp
      cases hsp
    · rfl

/-- Witness for C6: the concrete duplicate registration of leaf name a is
the fatal logic error in the gen.rs tree. -/
theorem duplicate_leaf_witness :
    (Module.mk ['d'] [] [Module.mk ['a'] [] [] (some [['f', '1']])] none).push_recurse
        [] [['f', '2']] ['a'] = Except.error "Logic error" :=
  (duplicate_leaf_fatal_vs_replace [] [['f', '2']] ['a'] (by decide)).1
    (Module.mk ['d'] [] [Module.mk ['a'] [] [] (some [['f', '1']])] none)
    (Module.mk ['a'] [] [] (some [['f', '1']]))
    rfl rfl

/-! ### C2: the diff count -/

theorem treeLookup_eq_none_iff {p : FPath} {l : DirTree} :
    treeLookup p l = none ↔ p ∉ l.map Prod.fst := by
  induction l with
  | nil => simp [treeLookup]
  | cons qc rest ih =>
    obtain ⟨q, c⟩ := qc
    by_cases hqp : q = p
    · simp [treeLookup, hqp]
    · simp only [treeLookup, if_neg hqp, List.map_cons, List.mem_cons, ih]
      constructor
      · intro hn hor
        rcases hor with hq | hm
        · exact hqp hq.symm
        · exact hn hm
      · intro hn hm
        exact hn (Or.inr hm)

theorem removeFirst_eq_none {p : FPath} {l : DirTree}
    (h : removeFirst p l = none) : treeLookup p l = none := by
  induction l with
  | nil => rfl
  | cons qc rest ih =>
    obtain ⟨q, c⟩ := qc
    by_cases hqp : q = p
    · simp [removeFirst, hqp] at h
    · simp only [removeFirst, if_neg hqp] at h
      simp only [treeLookup, if_neg hqp]
      cases hrf : removeFirst p rest with
      | none => exact ih hrf
      | some v =>
        obtain ⟨c', rest'⟩ := v
        rw [hrf] at h
        cases h

theorem removeFirst_eq_some {p : FPath} {l : DirTree} {c : CStr} {l' : DirTree}
    (h : removeFirst p l = some (c, l')) :
    treeLookup p l = some c ∧ l.Perm ((p, c) :: l') ∧
      (∀ q, q ≠ p → treeLookup q l' = treeLookup q l) := by
  induction l generalizing l' with
  | nil => cases h
  | cons qc rest ih =>
    obtain ⟨q, cq⟩ := qc
    by_cases hqp : q = p
    · subst hqp
      simp only [removeFirst, if_pos rfl] at h
      obtain ⟨rfl, rfl⟩ : cq = c ∧ rest = l' := by
        cases h
        exact ⟨rfl, rfl⟩
      refine ⟨by simp [treeLookup], List.Perm.refl _, ?_⟩
      intro r hrq
      simp only [treeLookup, if_neg (fun hq : q = r => hrq hq.symm)]
    · simp only [removeFirst, if_neg hqp] at h
      cases hrf : removeFirst p rest with
      | none => rw [hrf] at h; cases h
      | some v =>
        obtain ⟨c', rest'⟩ := v
        rw [hrf] at h
        obtain ⟨rfl, rfl⟩ : c' = c ∧ (q, cq) :: rest' = l' := by
          cases h
          exact ⟨rfl, rfl⟩
        obtain ⟨ih1, ih2, ih3⟩ := ih hrf
        refine ⟨?_, ?_, ?_⟩
        · simpa [treeLookup, if_neg hqp] using ih1
        · exact (ih2.cons (q, cq)).trans (List.Perm.swap _ _ _)
        · intro r hrq
          by_cases hqr : q = r
          · simp [treeLookup, hqr]
          · simp only [treeLookup, if_neg hqr]
            exact ih3 r hrq

/-- Counting a disjunction of two predicates that never hold together splits
into the two counts. -/
theorem countP_or_disjoint {α : Type} (g h : α → Bool)
    (hd : ∀ a, g a = true → h a = false) (l : List α) :
    l.countP (fun a => g a || h a) = l.countP g + l.countP h := by
  induction l with
  | nil => simp
  | cons a l ih =>
    simp only [List.countP_cons, ih]
    cases hg : g a with
    | true => simp [hg, hd a hg]; omega
    | false => cases hh : h a <;> simp [hg, hh] <;> omega

/-- The combined per-new-file predicate of the diff loop: a new file counts
when it is absent from the old tree or present with different bytes. -/
def diffPred (orig : DirTree) (pc : FPath × CStr) : Bool :=
  match treeLookup pc.1 orig with
  | none => true
  | some oc => decide (oc ≠ pc.2)

theorem diffFiles_nil (orig : DirTree) : diffFiles orig [] = (0, orig) := rfl

theorem diffFiles_cons_none {orig rest : DirTree} {p : FPath} {c : CStr}
    (h : removeFirst p orig = none) :
    diffFiles orig ((p, c) :: rest) =
      (1 + (diffFiles orig rest).1, (diffFiles orig rest).2) := by
  simp [diffFiles, h]

theorem diffFiles_cons_some {orig rest orig' : DirTree} {p : FPath}
    {c oc : CStr} (h : removeFirst p orig = some (oc, orig')) :
    diffFiles orig ((p, c) :: rest) =
      ((if oc = c then 0 else 1) + (diffFiles orig' rest).1,
        (diffFiles orig' rest).2) := by
  simp [diffFiles, h]

/-- What the file loop of `run_diff` computes: the count over the new files
of `diffPred`, and a leftover old set whose size is the number of old files
absent from the new tree. -/
theorem diffFiles_spec :
    ∀ (new orig : DirTree), (orig.map Prod.fst).Nodup →
      (new.map Prod.fst).Nodup →
      (diffFiles orig new).1 = new.countP (diffPred orig) ∧
      (diffFiles orig new).2.length =
        orig.countP fun pc => (treeLookup pc.1 new).isNone := by
  intro new
  induction new with
  | nil =>
    intro orig h1 h2
    constructor
    · simp [diffFiles_nil]
    · rw [diffFiles_nil]
      exact (List.countP_eq_length.mpr (fun pc hmem => rfl)).symm
  | cons pc rest ih =>
    intro orig h1 h2
    obtain ⟨p, c⟩ := pc
    simp only [List.map_cons, List.nodup_cons] at h2
    obtain ⟨hp_not, h2'⟩ := h2
    cases hrf : removeFirst p orig with
    | none =>
      have hlook : treeLookup p orig = none := removeFirst_eq_none hrf
      have hIH := ih orig h1 h2'
      rw [diffFiles_cons_none hrf]
      constructor
      · rw [List.countP_cons]
        have hpc : diffPred orig (p, c) = true := by
          simp [diffPred, hlook]
        rw [hpc, hIH.1]
        simp <;> omega
      · rw [hIH.2]
        apply List.countP_congr
        intro qc hmem
        have hqp : qc.1 ≠ p := by
          intro hq
          have hm : p ∈ orig.map Prod.fst :=
            List.mem_map.mpr ⟨qc, hmem, hq⟩
          exact (treeLookup_eq_none_iff.mp hlook) hm
        simp only [treeLookup, if_neg (fun hq : p = qc.1 => hqp hq.symm)]
    | some v =>
      obtain ⟨oc, orig'⟩ := v
      obtain ⟨hlook, hperm, hsame⟩ := removeFirst_eq_some hrf
      have hkeys : (orig.map Prod.fst).Perm (((p, oc) :: orig').map Prod.fst) :=
        hperm.map Prod.fst
      have hnodup2 : ((p :: orig'.map Prod.fst)).Nodup := by
        simpa using h1.perm hkeys
      have hp_not_orig' : p ∉ orig'.map Prod.fst :=
        (List.nodup_cons.mp hnodup2).1
      have hnodup_orig' : (orig'.map Prod.fst).Nodup :=
        (List.nodup_cons.mp hnodup2).2
      have hIH := ih orig' hnodup_orig' h2'
      rw [diffFiles_cons_some hrf]
      constructor
      · rw [List.countP_cons]
        have hpc : diffPred orig (p, c) = decide (oc ≠ c) := by
          simp [diffPred, hlook]
        have hrest : rest.countP (diffPred orig) = rest.countP (diffPred orig') := by
          apply List.countP_congr
          intro qc hmem
          have hqp : qc.1 ≠ p := by
            intro hq
            exact hp_not (List.mem_map.mpr ⟨qc, hmem, hq⟩)
          simp only [diffPred, hsame qc.1 hqp]
        rw [hpc, hrest, hIH.1]
        by_cases he : oc = c <;> simp [he] <;> omega
      · rw [hIH.2]
        have hcnt := hperm.countP_eq
          (fun pc => (treeLookup pc.1 ((p, c) :: rest)).isNone)
        rw [hcnt, List.countP_cons]
        have hhead : (treeLookup p ((p, c) :: rest)).isNone = false := by
          simp [treeLookup]
        have htail : orig'.countP
            (fun pc => (treeLookup pc.1 ((p, c) :: rest)).isNone) =
            orig'.countP (fun pc => (treeLookup pc.1 rest).isNone) := by
          apply List.countP_congr
          intro qc hmem
          have hqp : qc.1 ≠ p := by
            intro hq
            exact hp_not_orig' (List.mem_map.mpr ⟨qc, hmem, hq⟩)
          simp only [treeLookup, if_neg (fun hq : p = qc.1 => hqp hq.symm)]
        rw [htail]
        simp [hhead]

theorem treeLookup_isNone_perm {new new' : DirTree} (hperm : new.Perm new')
    (q : FPath) : (treeLookup q new').isNone = (treeLookup q new).isNone := by
  have hmemiff : q ∈ new'.map Prod.fst ↔ q ∈ new.map Prod.fst :=
    (hperm.map Prod.fst).mem_iff.symm
  cases hn : treeLookup q new with
  | none =>
    have ha : q ∉ new.map Prod.fst := treeLookup_eq_none_iff.mp hn
    have hb : treeLookup q new' = none :=
      treeLookup_eq_none_iff.mpr fun hm => ha (hmemiff.mp hm)
    rw [hb]
  | some c =>
    cases hn' : treeLookup q new' with
    | none =>
      have ha : q ∉ new'.map Prod.fst := treeLookup_eq_none_iff.mp hn'
      have hb : q ∈ new.map Prod.fst := by
        by_contra hq
        rw [treeLookup_eq_none_iff.mpr hq] at hn
        cases hn
      exact absurd (hmemiff.mpr hb) ha
    | some c' => rfl

/-- C2.  The diff count is exactly (files only in the new tree) + (files in
both whose bytes differ) + (files only in the old tree) + (1 when the
stored top-level index text differs from the new index text, a missing
stored index counting as different), and it does not depend on the order in
which the new tree's files are discovered. -/
theorem run_diff_count (orig new : DirTree) (old_mod : Option CStr)
    (new_mod : CStr) (h1 : (orig.map Prod.fst).Nodup)
    (h2 : (new.map Prod.fst).Nodup) :
    run_diff orig new old_mod new_mod =
      (new.countP fun pc => (treeLookup pc.1 orig).isNone) +
      (new.countP fun pc =>
        match treeLookup pc.1 orig with
        | some oc => decide (oc ≠ pc.2)
        | none => false) +
      (orig.countP fun pc => (treeLookup pc.1 new).isNone) +
      (match old_mod with
       | some c => if c = new_mod then 0 else 1
       | none => 1) ∧
    (∀ new', new.Perm new' →
      run_diff orig new' old_mod new_mod = run_diff orig new old_mod new_mod) := by
  have hd := diffFiles_spec new orig h1 h2
  constructor
  · simp only [run_diff]
    rw [hd.1, hd.2]
    have hsplit : new.countP (diffPred orig) =
        new.countP (fun pc => (treeLookup pc.1 orig).isNone) +
        new.countP (fun pc =>
          match treeLookup pc.1 orig with
          | some oc => decide (oc ≠ pc.2)
          | none => false) := by
      rw [← countP_or_disjoint]
      · apply List.countP_congr
        intro pc hmem
        cases hl : treeLookup pc.1 orig with
        | none => simp [diffPred, hl]
        | some oc => simp [diffPred, hl]
      · intro pc hg
        cases hl : treeLookup pc.1 orig with
        | none => simp [hl]
        | some oc => rw [hl] at hg; simp at hg
    rw [hsplit]
    omega
  · intro new' hperm
    have h2' : (new'.map Prod.fst).Nodup := (hperm.map Prod.fst).nodup_iff.mp h2
    have hdn := diffFiles_spec new' orig h1 h2'
    simp only [run_diff]
    rw [hd.1, hd.2, hdn.1, hdn.2]
    have hc1 : new'.countP (diffPred orig) = new.countP (diffPred orig) :=
      (hperm.countP_eq _).symm
    have hc2 : orig.countP (fun pc => (treeLookup pc.1 new').isNone) =
        orig.countP (fun pc => (treeLookup pc.1 new).isNone) :=
      List.countP_congr fun pc hm => by rw [treeLookup_isNone_perm hperm pc.1]
    rw [hc1, hc2]

/-- Witness for C2: one changed file, one added file, one removed file and
an unchanged index give a count of exactly 3. -/
theorem run_diff_count_witness :
    run_diff [([['a']], ['x']), ([['b']], ['y'])]
      [([['a']], ['z']), ([['c']], ['w'])] (some ['i']) ['i'] = 3 := by
  have h := (run_diff_count [([['a']], ['x']), ([['b']], ['y'])]
    [([['a']], ['z']), ([['c']], ['w'])] (some ['i']) ['i']
    (by decide) (by decide)).1
  rw [h]
  decide

/-! ### C7: a missing old tree is an empty old tree -/

/-- C7.  A nonexistent old directory is collected as the empty set rather
than an error, and diffing two empty trees with a previously absent
top-level index yields a count of exactly 1, contributed by the missing
index alone. -/
theorem missing_old_tree_diff (root : CStr) (src : FPath) (idx : CStr) :
    collect_files root src none = Except.ok [] ∧
    run_diff [] [] none idx = 1 :=
  ⟨rfl, rfl⟩

/-! ### C8: the sanitizer on inert text -/

theorem hasCRLF_cons_false {x : Char} {rest : CStr}
    (h : hasCRLF (x :: rest) = false) : hasCRLF rest = false := by
  cases rest with
  | nil => rfl
  | cons y ys =>
    simp only [hasCRLF, Bool.or_eq_false_iff] at h
    exact h.2

theorem hasCRLF_append_false {a b : CStr}
    (h : hasCRLF (a ++ b) = false) : hasCRLF b = false := by
  induction a with
  | nil => exact h
  | cons x xs ih => exact ih (hasCRLF_cons_false h)

theorem hasCRLF_mid (zs ys : CStr) :
    hasCRLF (zs ++ crc :: nlc :: ys) = true := by
  induction zs with
  | nil => simp [hasCRLF]
  | cons x xs ih =>
    cases xs with
    | nil =>
      simp only [List.cons_append, List.nil_append, hasCRLF, Bool.or_eq_true,
        decide_eq_true_eq]
      right
      simpa [hasCRLF] using ih
    | cons y ys' =>
      simp only [List.cons_append, hasCRLF, Bool.or_eq_true,
        decide_eq_true_eq] at ih ⊢
      right
      simpa using ih

theorem strEndsWith_single {c k : Char} {cs : CStr} (h : cs ≠ []) :
    strEndsWith (c :: cs) [k] = strEndsWith cs [k] := by
  have hrev : cs.reverse ≠ [] := by
    simpa using h
  obtain ⟨d, ds, hds⟩ : ∃ d ds, cs.reverse = d :: ds := by
    cases hr : cs.reverse with
    | nil => exact absurd hr hrev
    | cons d ds => exact ⟨d, ds, rfl⟩
  simp [strEndsWith, hds, listStarts]

theorem stripCR_of_no_crlf {xs ys : CStr}
    (h : hasCRLF (xs ++ nlc :: ys) = false) : stripCR xs = xs := by
  rw [stripCR]
  cases hcr : strEndsWith xs [crc] with
  | false => rfl
  | true =>
    obtain ⟨zs, hzs⟩ : ∃ zs, xs = zs ++ [crc] := by
      obtain ⟨zs, hzs⟩ := strEndsWith_iff.mp hcr
      exact ⟨zs, hzs.symm⟩
    rw [hzs] at h
    rw [show zs ++ [crc] ++ nlc :: ys = zs ++ crc :: nlc :: ys by simp] at h
    rw [hasCRLF_mid] at h
    cases h

theorem joinNl_nil : joinNl [] = [] := rfl

theorem joinNl_cons (l : CStr) (ls : List CStr) :
    joinNl (l :: ls) = l ++ nlc :: joinNl ls := rfl

/-- Splitting a carriage-return-free, line-feed-terminated text into lines
and rejoining them with line feeds is the identity. -/
theorem joinNl_rustLinesAux :
    ∀ (s cur : CStr), hasCRLF (cur.reverse ++ s) = false →
      strEndsWith s [nlc] = true →
      joinNl (rustLinesAux cur s) = cur.reverse ++ s := by
  intro s
  induction s with
  | nil =>
    intro cur hcrlf hend
    simp [strEndsWith, listStarts] at hend
  | cons c cs ih =>
    intro cur hcrlf hend
    by_cases hc : c = nlc
    · subst hc
      rw [show rustLinesAux cur (nlc :: cs) =
        stripCR cur.reverse :: rustLinesAux [] cs from by simp [rustLinesAux]]
      have hstrip : stripCR cur.reverse = cur.reverse :=
        stripCR_of_no_crlf hcrlf
      cases hcs : cs with
      | nil =>
        subst hcs
        rw [joinNl_cons, hstrip]
        rfl
      | cons d ds =>
        have hcs_ne : cs ≠ [] := by rw [hcs]; simp
        have hend' : strEndsWith cs [nlc] = true := by
          rw [← strEndsWith_single (c := nlc) (k := nlc) hcs_ne]
          exact hend
        have hcrlf' : hasCRLF (([] : CStr).reverse ++ cs) = false := by
          have h1 : hasCRLF (nlc :: cs) = false := hasCRLF_append_false hcrlf
          simpa using hasCRLF_cons_false h1
        rw [← hcs, joinNl_cons, hstrip]
        have hih := ih [] hcrlf' hend'
        simp only [List.reverse_nil, List.nil_append] at hih
        rw [hih]
    · rw [show rustLinesAux cur (c :: cs) = rustLinesAux (c :: cur) cs from by
        simp [rustLinesAux, hc]]
      cases hcs : cs with
      | nil =>
        exfalso
        rw [hcs] at hend
        have : strEndsWith [c] [nlc] = decide (nlc = c) := by
          simp [strEndsWith, listStarts]
        rw [this] at hend
        exact hc (decide_eq_true_eq.mp hend).symm
      | cons d ds =>
        have hcs_ne : cs ≠ [] := by rw [hcs]; simp
        have hend' : strEndsWith cs [nlc] = true := by
          rw [← strEndsWith_single (c := c) (k := nlc) hcs_ne]
          exact hend
        have hlist : (c :: cur).reverse ++ cs = cur.reverse ++ c :: cs := by
          simp
        have hcrlf' : hasCRLF ((c :: cur).reverse ++ cs) = false := by
          rw [hlist]
          exact hcrlf
        rw [← hcs, ih (c :: cur) hcrlf' hend', hlist]

/-- A scan over inert lines (no fences, no indentation triggers) only
re-emits every line with its line feed. -/
theorem hdLoop_inert :
    ∀ (ls : List CStr), (∀ l ∈ ls, lineInert l = true) →
      hdLoop false false ls = joinNl ls := by
  intro ls
  induction ls with
  | nil => intro h; rfl
  | cons line rest ih =>
    intro h
    have hl := h line (List.mem_cons_self _ _)
    have hrest := fun l hm => h l (List.mem_cons_of_mem _ hm)
    simp only [lineInert, Bool.and_eq_true, Bool.not_eq_true'] at hl
    obtain ⟨hfence, hsplit⟩ := hl
    cases hsp : splitOnceStr tripleSlash line with
    | some p =>
      obtain ⟨pre, r⟩ := p
      rw [hsp] at hsplit
      simp only [Bool.not_eq_true'] at hsplit
      simp [hdLoop, hfence, hsp, hsplit, ih hrest, joinNl]
    | none =>
      simp [hdLoop, hfence, hsp, ih hrest, joinNl]

/-- C8 (counterexample).  The claim says the sanitizer is the identity on
any text without fences or indented documentation lines; on a text whose
last line is unterminated the sanitizer appends a line feed. -/
theorem hide_doctests_not_identity :
    hide_doctests ['a'] ≠ ['a'] := by decide

/-- C8 (amended).  On text containing no fenced blocks and no
documentation-comment lines meeting the indentation trigger, the sanitizer
emits exactly the text's logical lines each re-terminated with a line feed
(restoring the trailing line feed and normalizing CRLF line endings), and
is therefore the identity exactly when the text is empty or ends with a
line feed and contains no carriage-return-line-feed pair. -/
theorem hide_doctests_identity (content : CStr)
    (hinert : ∀ l ∈ rustLines content, lineInert l = true) :
    hide_doctests content = joinNl (rustLines content) ∧
    ((content = [] ∨ strEndsWith content [nlc] = true) →
      hasCRLF content = false → hide_doctests content = content) := by
  refine ⟨?_, ?_⟩
  · rw [hide_doctests, hdLoop_inert (rustLines content) hinert]
  · intro hnl hcrlf
    cases hnl with
    | inl he => subst he; rfl
    | inr hend =>
      rw [hide_doctests, hdLoop_inert (rustLines content) hinert, rustLines]
      have := joinNl_rustLinesAux content [] (by simpa using hcrlf) hend
      simpa using this

/-- Witness for C8: an inert CRLF-terminated text is normalized to its
line-feed-joined logical lines, and a concrete inert, line-feed-terminated
text is fixed by the sanitizer. -/
theorem hide_doctests_identity_witness :
    (hide_doctests ['a', crc, nlc] = joinNl (rustLines ['a', crc, nlc]) ∧
      ((['a', crc, nlc] = ([] : CStr) ∨
          strEndsWith ['a', crc, nlc] [nlc] = true) →
        hasCRLF ['a', crc, nlc] = false →
        hide_doctests ['a', crc, nlc] = ['a', crc, nlc])) ∧
    hide_doctests ['a', 'b', nlc] = ['a', 'b', nlc] :=
  ⟨hide_doctests_identity ['a', crc, nlc] (by decide),
    (hide_doctests_identity ['a', 'b', nlc] (by decide)).2
      (Or.inr (by decide)) (by decide)⟩

/-! ### C10: no closing fence at end of input -/

theorem rustLinesAux_line (t : CStr) :
    ∀ (l cur : CStr), nlc ∉ l →
      rustLinesAux cur (l ++ nlc :: t) =
        stripCR (cur.reverse ++ l) :: rustLinesAux [] t := by
  intro l
  induction l with
  | nil =>
    intro cur h
    simp [rustLinesAux]
  | cons c l' ih =>
    intro cur h
    simp only [List.mem_cons, not_or] at h
    rw [show (c :: l') ++ nlc :: t = c :: (l' ++ nlc :: t) from rfl]
    rw [show rustLinesAux cur (c :: (l' ++ nlc :: t)) =
      rustLinesAux (c :: cur) (l' ++ nlc :: t) from by
        simp only [rustLinesAux]
        rw [if_neg (fun he : c = nlc => h.1 he.symm)]]
    rw [ih (c :: cur) h.2]
    simp

/-- Joining clean lines and splitting them back yields the same lines. -/
theorem rustLines_joinNl (ls : List CStr)
    (h : ∀ l ∈ ls, lineClean l = true) : rustLines (joinNl ls) = ls := by
  induction ls with
  | nil => rfl
  | cons l rest ih =>
    have hl := h l (List.mem_cons_self _ _)
    simp only [lineClean, Bool.and_eq_true, decide_eq_true_eq,
      Bool.not_eq_true'] at hl
    rw [joinNl_cons, rustLines, rustLinesAux_line (joinNl rest) l [] hl.1]
    rw [show stripCR (([] : CStr).reverse ++ l) = stripCR l from by simp]
    rw [stripCR, hl.2, if_neg (by simp)]
    rw [show rustLinesAux [] (joinNl rest) = rustLines (joinNl rest) from rfl]
    rw [ih fun l hm => h l (List.mem_cons_of_mem _ hm)]

/-- With the indented-example flag already set, a run of further triggering
lines is passed through unchanged, with no injected fence. -/
theorem hdLoop_trigger_hostile (ls : List CStr)
    (h : ∀ l ∈ ls, lineTriggers l = true) :
    hdLoop false true ls = joinNl ls := by
  induction ls with
  | nil => rfl
  | cons line rest ih =>
    have hl := h line (List.mem_cons_self _ _)
    simp only [lineTriggers, Bool.and_eq_true, Bool.not_eq_true'] at hl
    obtain ⟨hfence, hsplit⟩ := hl
    cases hsp : splitOnceStr tripleSlash line with
    | some p =>
      obtain ⟨pre, r⟩ := p
      rw [hsp] at hsplit
      have htrig : hostileTrigger r = true := hsplit
      simp [hdLoop, hfence, hsp, htrig,
        ih fun l hm => h l (List.mem_cons_of_mem _ hm), joinNl_cons]
    | none =>
      rw [hsp] at hsplit
      cases hsplit

/-- `hdLoop` on a cons emits the single-line output followed by the loop on
the tail started from the stepped flags. -/
theorem hdLoop_cons (inB inH : Bool) (line : CStr) (rest : List CStr) :
    hdLoop inB inH (line :: rest) =
      hdLoop inB inH [line] ++
        hdLoop (hdStep (inB, inH) line).1 (hdStep (inB, inH) line).2 rest := by
  cases hfb : strEndsWith line fenceStr with
  | true =>
    cases inB with
    | false => simp [hdLoop, hdStep, hfb]
    | true =>
      cases hsp : splitOnceStr tripleSlash line with
      | some p =>
        obtain ⟨pre, r⟩ := p
        cases ht : hostileTrigger r <;> cases inH <;>
          simp [hdLoop, hdStep, hfb, hsp, ht]
      | none =>
        cases inH <;> simp [hdLoop, hdStep, hfb, hsp]
  | false =>
    cases inB with
    | true => simp [hdLoop, hdStep, hfb]
    | false =>
      cases hsp : splitOnceStr tripleSlash line with
      | some p =>
        obtain ⟨pre, r⟩ := p
        cases ht : hostileTrigger r <;> cases inH <;>
          simp [hdLoop, hdStep, hfb, hsp, ht]
      | none =>
        cases inH <;> simp [hdLoop, hdStep, hfb, hsp]

/-- `hdLoop` on an appended input emits the first part's output followed by
the loop on the second part, resumed from the flags reached by the first. -/
theorem hdLoop_append :
    ∀ (ps : List CStr) (b h : Bool) (ts : List CStr),
      hdLoop b h (ps ++ ts) =
        hdLoop b h ps ++
          hdLoop (hdState (b, h) ps).1 (hdState (b, h) ps).2 ts := by
  intro ps
  induction ps with
  | nil => intro b h ts; simp [hdLoop, hdState]
  | cons l rest ih =>
    intro b h ts
    rw [List.cons_append, hdLoop_cons b h l (rest ++ ts),
      ih (hdStep (b, h) l).1 (hdStep (b, h) l).2 ts,
      hdLoop_cons b h l rest, List.append_assoc]
    rfl

/-- The sanitizer flags compose along an appended input. -/
theorem hdState_append (st : Bool × Bool) (ps ts : List CStr) :
    hdState st (ps ++ ts) = hdState (hdState st ps) ts := by
  simp [hdState, List.foldl_append]

/-- Outside a fenced block, a triggering line always moves the flags to
(block off, indented-example on). -/
theorem hdStep_trigger (b : Bool) (l : CStr) (hl : lineTriggers l = true) :
    hdStep (false, b) l = (false, true) := by
  simp only [lineTriggers, Bool.and_eq_true, Bool.not_eq_true'] at hl
  obtain ⟨hfence, hsplit⟩ := hl
  cases hsp : splitOnceStr tripleSlash l with
  | some p =>
    obtain ⟨pre, r⟩ := p
    rw [hsp] at hsplit
    have htrig : hostileTrigger r = true := hsplit
    simp [hdStep, hfence, hsp, htrig]
  | none =>
    rw [hsp] at hsplit
    cases hsplit

/-- Scanning a nonempty run of triggering lines from outside a fenced block
ends with the indented-example flag set. -/
theorem hdState_trigger :
    ∀ (ts : List CStr), ts ≠ [] → (∀ l ∈ ts, lineTriggers l = true) →
      ∀ (b : Bool), hdState (false, b) ts = (false, true) := by
  intro ts
  induction ts with
  | nil => intro hne; exact absurd rfl hne
  | cons l rest ih =>
    intro _ h b
    show hdState (hdStep (false, b) l) rest = (false, true)
    rw [hdStep_trigger b l (h l (List.mem_cons_self _ _))]
    rcases rest with _ | ⟨m, ms⟩
    · rfl
    · exact ih (by simp) (fun x hm => h x (List.mem_cons_of_mem _ hm)) true

/-- With both flags clear, a run of triggering lines is emitted with the
tagged opening fence injected before its first line and nothing else
changed. -/
theorem hdLoop_trigger_cold (ts : List CStr) (hne : ts ≠ [])
    (h : ∀ l ∈ ts, lineTriggers l = true) :
    hdLoop false false ts = openFenceLine ++ nlc :: joinNl ts := by
  rcases ts with _ | ⟨l, rest⟩
  · exact absurd rfl hne
  · have hl := h l (List.mem_cons_self _ _)
    simp only [lineTriggers, Bool.and_eq_true, Bool.not_eq_true'] at hl
    obtain ⟨hfence, hsplit⟩ := hl
    cases hsp : splitOnceStr tripleSlash l with
    | some p =>
      obtain ⟨pre, r⟩ := p
      rw [hsp] at hsplit
      have htrig : hostileTrigger r = true := hsplit
      rw [show hdLoop false false (l :: rest) =
        openFenceLine ++ nlc :: (l ++ nlc :: hdLoop false true rest) from by
          simp [hdLoop, hfence, hsp, htrig]]
      rw [hdLoop_trigger_hostile rest fun x hm => h x (List.mem_cons_of_mem _ hm)]
      rw [joinNl_cons]
    | none =>
      rw [hsp] at hsplit
      cases hsplit

/-- With the fenced-block flag clear, a run of triggering lines is emitted
verbatim, preceded by the tagged opening fence exactly when the
indented-example flag was not already set. -/
theorem hdLoop_trigger_any (ts : List CStr) (hne : ts ≠ [])
    (h : ∀ l ∈ ts, lineTriggers l = true) (b : Bool) :
    hdLoop false b ts =
      (if b = true then [] else openFenceLine ++ [nlc]) ++ joinNl ts := by
  cases b with
  | true =>
    rw [hdLoop_trigger_hostile ts h]
    simp
  | false =>
    rw [hdLoop_trigger_cold ts hne h]
    simp

/-- C10.  When the input ends with a nonempty run of documentation-comment
lines that all meet the indentation trigger, after any prefix whose scan
does not end inside an open fenced block, the scan ends with the
indented-example state still active; the sanitizer emits the trailing run
unchanged, injecting the tagged opening fence immediately before it exactly
when the state was not already active, and from the trailing run to the end
of the output there is no closing fence line (and exactly the one injected
opening fence line when it is injected). -/
theorem unmatched_open_fence (ps ts : List CStr) (hne : ts ≠ [])
    (hts : ∀ l ∈ ts, lineTriggers l = true ∧ lineClean l = true)
    (hps : ∀ l ∈ ps, lineClean l = true)
    (hblock : (hdState (false, false) ps).1 = false) :
    (hdState (false, false) (ps ++ ts)).2 = true ∧
    hide_doctests (joinNl (ps ++ ts)) =
      hdLoop false false ps ++
        (if (hdState (false, false) ps).2 = true then []
          else openFenceLine ++ [nlc]) ++ joinNl ts ∧
    (rustLines ((if (hdState (false, false) ps).2 = true then []
        else openFenceLine ++ [nlc]) ++ joinNl ts)).count openFenceLine =
      (if (hdState (false, false) ps).2 = true then 0 else 1) ∧
    (rustLines ((if (hdState (false, false) ps).2 = true then []
        else openFenceLine ++ [nlc]) ++ joinNl ts)).count closeFenceLine = 0 := by
  have hclean : ∀ l ∈ ps ++ ts, lineClean l = true := by
    intro l hm
    cases List.mem_append.mp hm with
    | inl h1 => exact hps l h1
    | inr h2 => exact (hts l h2).2
  have hps_state : hdState (false, false) ps =
      (false, (hdState (false, false) ps).2) := by
    have heta : hdState (false, false) ps =
        ((hdState (false, false) ps).1, (hdState (false, false) ps).2) := rfl
    rw [heta, hblock]
  have hopen_zero : ts.count openFenceLine = 0 := by
    rw [List.count_eq_zero]
    intro hmem
    have := (hts openFenceLine hmem).1
    rw [show lineTriggers openFenceLine = false from by decide] at this
    cases this
  have hclose_zero : ts.count closeFenceLine = 0 := by
    rw [List.count_eq_zero]
    intro hmem
    have := (hts closeFenceLine hmem).1
    rw [show lineTriggers closeFenceLine = false from by decide] at this
    cases this
  have hlines_ts : rustLines (joinNl ts) = ts :=
    rustLines_joinNl ts fun x hm => (hts x hm).2
  have hlines_open : rustLines (openFenceLine ++ nlc :: joinNl ts) =
      openFenceLine :: ts := by
    rw [show openFenceLine ++ nlc :: joinNl ts = joinNl (openFenceLine :: ts)
      from (joinNl_cons _ _).symm]
    refine rustLines_joinNl (openFenceLine :: ts) ?_
    intro x hm
    cases List.mem_cons.mp hm with
    | inl he => subst he; decide
    | inr hm2 => exact (hts x hm2).2
  refine ⟨?_, ?_, ?_, ?_⟩
  · have h0 := hdState_append (false, false) ps ts
    rw [hps_state] at h0
    rw [h0,
      hdState_trigger ts hne (fun l hm => (hts l hm).1)
        (hdState (false, false) ps).2]
  · rw [hide_doctests, rustLines_joinNl _ hclean]
    have hsplit : hdLoop false false (ps ++ ts) =
        hdLoop false false ps ++
          hdLoop false (hdState (false, false) ps).2 ts := by
      have h0 := hdLoop_append ps false false ts
      rw [hps_state] at h0
      exact h0
    rw [hsplit,
      hdLoop_trigger_any ts hne (fun l hm => (hts l hm).1)
        (hdState (false, false) ps).2]
    simp [List.append_assoc]
  · cases hb : (hdState (false, false) ps).2 with
    | true => simp [hb, hlines_ts, hopen_zero]
    | false =>
      simp only [hb, Bool.false_eq_true, if_false, List.append_assoc,
        List.cons_append, List.nil_append, hlines_open, List.count_cons]
      simp [hopen_zero]
  · cases hb : (hdState (false, false) ps).2 with
    | true => simp [hb, hlines_ts, hclose_zero]
    | false =>
      simp only [hb, Bool.false_eq_true, if_false, List.append_assoc,
        List.cons_append, List.nil_append, hlines_open, List.count_cons]
      simp [hclose_zero]
      decide

/-- Witness for C10: an ordinary line followed by one indented
documentation line; the opening fence is injected before the latter and no
closing fence follows. -/
theorem unmatched_open_fence_witness :
    (hdState (false, false)
      ([['a', 'b']] ++ [['/', '/', '/', ' ', ' ', ' ', ' ', 'x']])).2 = true ∧
    hide_doctests (joinNl
        ([['a', 'b']] ++ [['/', '/', '/', ' ', ' ', ' ', ' ', 'x']])) =
      hdLoop false false [['a', 'b']] ++
        (if (hdState (false, false) [['a', 'b']]).2 = true then []
          else openFenceLine ++ [nlc]) ++
        joinNl [['/', '/', '/', ' ', ' ', ' ', ' ', 'x']] ∧
    (rustLines ((if (hdState (false, false) [['a', 'b']]).2 = true then []
        else openFenceLine ++ [nlc]) ++
      joinNl [['/', '/', '/', ' ', ' ', ' ', ' ', 'x']])).count openFenceLine =
      (if (hdState (false, false) [['a', 'b']]).2 = true then 0 else 1) ∧
    (rustLines ((if (hdState (false, false) [['a', 'b']]).2 = true then []
        else openFenceLine ++ [nlc]) ++
      joinNl [['/', '/', '/', ' ', ' ', ' ', ' ', 'x']])).count closeFenceLine = 0 :=
  unmatched_open_fence [['a', 'b']] [['/', '/', '/', ' ', ' ', ' ', ' ', 'x']]
    (by decide) (by decide) (by decide) (by decide)

/-! ### C1: the package-collision merge -/

theorem ne_of_length_ne {α : Type} {a b : List α} (h : a.length ≠ b.length) :
    a ≠ b := fun he => h (he ▸ rfl)

theorem rsplit_rs (p : CStr) :
    rsplitOnceChar '.' (p ++ rsExt) = some (p, ['r', 's']) := by
  rw [rsplitOnceChar]
  have hrev : (p ++ rsExt).reverse = ['s', 'r'] ++ '.' :: p.reverse := by
    simp [rsExt]
  rw [hrev, splitOnceChar_append_cons p.reverse (by decide)]
  simp

theorem rsplit_pq_rs (p q : CStr) :
    rsplitOnceChar '.' (p ++ '.' :: (q ++ rsExt)) =
      some (p ++ '.' :: q, ['r', 's']) := by
  rw [rsplitOnceChar]
  have hrev : (p ++ '.' :: (q ++ rsExt)).reverse =
      ['s', 'r'] ++ '.' :: (q.reverse ++ '.' :: p.reverse) := by
    simp [rsExt]
  rw [hrev, splitOnceChar_append_cons _ (by decide)]
  simp

theorem fsRead_write_ne {fs : FSf} {pW pR : FPath} {v : CStr} (h : pR ≠ pW) :
    fsRead (fsWrite fs pW v) pR = fsRead fs pR := by
  simp [fsRead, fsWrite, h]

theorem fsRead_remove_ne {fs : FSf} {pW pR : FPath} (h : pR ≠ pW) :
    fsRead (fsRemove fs pW) pR = fsRead fs pR := by
  simp [fsRead, fsRemove, h]

/-- One-step unfolding of `push_recurse`: a dot-free name not yet present
becomes a fresh leaf child. -/
theorem push_recurse_new_leaf (m : Module) (parent path : FPath) (raw : CStr)
    (hs : splitOnceChar '.' raw = none)
    (hl : lookupChild raw m.children = none) :
    m.push_recurse parent path raw =
      Except.ok (m.withChildren
        (m.children ++ [Module.mk raw parent [] (some path)])) := by
  rw [Module.push_recurse]
  split
  · rename_i cur rest hsp
    rw [hs] at hsp
    cases hsp
  · rw [hl]

/-- One-step unfolding of `push_recurse`: a dot-free name whose child exists
without a file gets the file attached (the branch-merge case). -/
theorem push_recurse_set_file (m : Module) (parent path : FPath) (raw : CStr)
    (old : Module) (hs : splitOnceChar '.' raw = none)
    (hl : lookupChild raw m.children = some old) (hf : old.file = none) :
    m.push_recurse parent path raw =
      Except.ok (m.withChildren
        (replaceChild raw (old.withFile (some path)) m.children)) := by
  rw [Module.push_recurse]
  split
  · rename_i cur rest hsp
    rw [hs] at hsp
    cases hsp
  · rw [hl]
    simp [hf]

/-- One-step unfolding of `push_recurse`: recursion into an existing branch
child. -/
theorem push_recurse_into_child (m : Module) (parent path : FPath)
    (raw cur rest : CStr) (child child' : Module)
    (hs : splitOnceChar '.' raw = some (cur, rest))
    (hl : lookupChild cur m.children = some child)
    (hrec : child.push_recurse (parent ++ [cur]) path rest = Except.ok child') :
    m.push_recurse parent path raw =
      Except.ok (m.withChildren (replaceChild cur child' m.children)) := by
  rw [Module.push_recurse]
  split
  · rename_i cur2 rest2 hsp
    rw [hs] at hsp
    cases hsp
    rw [hl]
    simp only [hrec]
  · rename_i hsp
    rw [hs] at hsp
    cases hsp

/-- One-step unfolding of `push_recurse`: recursion into a freshly created
branch child. -/
theorem push_recurse_new_child (m : Module) (parent path : FPath)
    (raw cur rest : CStr) (md' : Module)
    (hs : splitOnceChar '.' raw = some (cur, rest))
    (hl : lookupChild cur m.children = none)
    (hrec : (Module.mk cur parent [] none).push_recurse (parent ++ [cur])
      path rest = Except.ok md') :
    m.push_recurse parent path raw =
      Except.ok (m.withChildren (m.children ++ [md'])) := by
  rw [Module.push_recurse]
  split
  · rename_i cur2 rest2 hsp
    rw [hs] at hsp
    cases hsp
    rw [hl]
    simp only [hrec]
  · rename_i hsp
    rw [hs] at hsp
    cases hsp

/-- One-step unfolding of lib.rs `push_recurse`: a dot-free name on a
`Parent` is inserted as a `Node` with `HashMap::insert`, replacing any
existing child of that name. -/
theorem mc_push_recurse_leaf (nm : CStr) (loc : FPath)
    (children : List ModuleContainer) (parentPath path : FPath) (raw : CStr)
    (hs : splitOnceChar '.' raw = none) :
    (ModuleContainer.parent nm loc children).push_recurse parentPath path raw =
      Except.ok (ModuleContainer.parent nm loc
        (mcInsert raw (ModuleContainer.node raw parentPath path) children)) := by
  rw [ModuleContainer.push_recurse]
  split
  · rename_i cur rest hsp
    rw [hs] at hsp
    cases hsp
  · rfl

/-- One-step unfolding of lib.rs `push_recurse`: recursion into a freshly
created `Parent` child. -/
theorem mc_push_recurse_new_child (nm : CStr) (loc : FPath)
    (children : List ModuleContainer) (parentPath path : FPath)
    (raw cur rest : CStr) (md' : ModuleContainer)
    (hs : splitOnceChar '.' raw = some (cur, rest))
    (hf : children.find? (fun c => decide (c.name = cur)) = none)
    (hrec : (ModuleContainer.parent cur parentPath []).push_recurse
      (parentPath ++ [cur]) path rest = Except.ok md') :
    (ModuleContainer.parent nm loc children).push_recurse parentPath path raw =
      Except.ok (ModuleContainer.parent nm loc (mcInsert cur md' children)) := by
  rw [ModuleContainer.push_recurse]
  split
  · rename_i cur2 rest2 hsp
    rw [hs] at hsp
    cases hsp
    rw [hf]
    simp only [hrec]
  · rename_i hsp
    rw [hs] at hsp
    cases hsp

/-- C1 (counterexample).  The claim says pushing `p` and `p.q` in either
order raises no error; in the lib.rs `ModuleContainer` implementation,
pushing `p` first and `p.q` second fails with a push error (and the other
order silently replaces the branch, losing the merge). -/
theorem mc_merge_push_error :
    ((ModuleContainer.parent ['d'] [] []).push_file []
        [['p', '.', 'r', 's']]).bind
      (fun r => r.push_file [] [['p', '.', 'q', '.', 'r', 's']]) =
      Except.error "Raw name did not belong to a parent node" := by
  simp [ModuleContainer.push_file, ModuleContainer.push_recurse,
    rsplitOnceChar, splitOnceChar, mcInsert, ModuleContainer.name,
    Except.bind, List.getLast?]

/-- C1 (amended).  In the gen.rs `Module` implementation, pushing generated
files for packages `p` and `p.q` (either order) builds the same merged tree
with no duplicate or leaf error, and materializing it produces a single
file `p.rs` whose content is the sanitized merge of the re-export line for
`q` with package `p`'s own content, a file `p/q.rs` with `q`'s sanitized
content, and no leftover `p.q.rs`; the lib.rs `ModuleContainer`
implementation instead fails (or loses the merge) on this input. -/
theorem module_merge_materialize
    (out : FPath) (p q Cp Cq : CStr)
    (hp : '.' ∉ p) (hq : '.' ∉ q) (hp0 : p ≠ []) (hq0 : q ≠ [])
    (hrp : listStarts ['r', '#'] p = false)
    (hrq : listStarts ['r', '#'] q = false) :
    ((Module.mk ['d', 'u', 'm', 'm', 'y'] out [] none).push_file out
        (out ++ [p ++ rsExt])).bind
      (fun r => r.push_file out (out ++ [p ++ '.' :: (q ++ rsExt)])) =
      Except.ok (Module.mk ['d', 'u', 'm', 'm', 'y'] out
        [Module.mk p out
          [Module.mk q (out ++ [p]) []
            (some (out ++ [p ++ '.' :: (q ++ rsExt)]))]
          (some (out ++ [p ++ rsExt]))] none) ∧
    ((Module.mk ['d', 'u', 'm', 'm', 'y'] out [] none).push_file out
        (out ++ [p ++ '.' :: (q ++ rsExt)])).bind
      (fun r => r.push_file out (out ++ [p ++ rsExt])) =
      Except.ok (Module.mk ['d', 'u', 'm', 'm', 'y'] out
        [Module.mk p out
          [Module.mk q (out ++ [p]) []
            (some (out ++ [p ++ '.' :: (q ++ rsExt)]))]
          (some (out ++ [p ++ rsExt]))] none) ∧
    (∃ fs',
      Module.dump_to_disk 3
        (Module.mk p out
          [Module.mk q (out ++ [p]) []
            (some (out ++ [p ++ '.' :: (q ++ rsExt)]))]
          (some (out ++ [p ++ rsExt])))
        ⟨false, none, none⟩
        (fun pp => if pp = out ++ [p ++ rsExt] then some Cp
          else if pp = out ++ [p ++ '.' :: (q ++ rsExt)] then some Cq
          else none) = Except.ok fs' ∧
      fs' (out ++ [p ++ rsExt]) =
        some (hide_doctests (pubModLine q ++ nlc :: Cp)) ∧
      fs' (out ++ [p] ++ [q ++ rsExt]) = some (hide_doctests Cq) ∧
      fs' (out ++ [p ++ '.' :: (q ++ rsExt)]) = none) ∧
    ((ModuleContainer.parent ['d', 'u', 'm', 'm', 'y'] out []).push_file out
        (out ++ [p ++ '.' :: (q ++ rsExt)])).bind
      (fun r => r.push_file out (out ++ [p ++ rsExt])) =
      Except.ok (ModuleContainer.parent ['d', 'u', 'm', 'm', 'y'] out
        [ModuleContainer.node p out (out ++ [p ++ rsExt])]) := by
  have hsp_p : splitOnceChar '.' p = none := splitOnceChar_not_mem hp
  have hsp_q : splitOnceChar '.' q = none := splitOnceChar_not_mem hq
  have hsp_pq : splitOnceChar '.' (p ++ '.' :: q) = some (p, q) :=
    splitOnceChar_append_cons q hp
  have hqlen : 0 < q.length := List.length_pos.mpr hq0
  have hname : (p ++ '.' :: (q ++ rsExt)) ≠ p ++ rsExt :=
    ne_of_length_ne (by simp [rsExt])
  have hne_ab : out ++ [p ++ '.' :: (q ++ rsExt)] ≠ out ++ [p ++ rsExt] := by
    intro he
    apply hname
    have := List.append_cancel_left he
    simpa using this
  have hne_ba : out ++ [p ++ rsExt] ≠ out ++ [p ++ '.' :: (q ++ rsExt)] :=
    hne_ab.symm
  have hne_1q : out ++ [p ++ rsExt] ≠ out ++ [p] ++ [q ++ rsExt] :=
    ne_of_length_ne (by simp)
  have hne_2q : out ++ [p ++ '.' :: (q ++ rsExt)] ≠ out ++ [p] ++ [q ++ rsExt] :=
    ne_of_length_ne (by simp)
  have hne_q1 : out ++ [p] ++ [q ++ rsExt] ≠ out ++ [p ++ rsExt] :=
    hne_1q.symm
  have hne_q2 : out ++ [p] ++ [q ++ rsExt] ≠ out ++ [p ++ '.' :: (q ++ rsExt)] :=
    hne_2q.symm
  have hproper_p : properFileName p = p := by
    simp [properFileName, hrp]
  have hproper_q : properFileName q = q := by
    simp [properFileName, hrq]
  have hlook0 : ∀ loc fl, lookupChild p [Module.mk p loc [] fl] =
      some (Module.mk p loc [] fl) := by
    intro loc fl
    simp [lookupChild, List.find?, Module.name]
  have hlookQ : lookupChild p
      [Module.mk p out
        [Module.mk q (out ++ [p]) []
          (some (out ++ [p ++ '.' :: (q ++ rsExt)]))] none] =
      some (Module.mk p out
        [Module.mk q (out ++ [p]) []
          (some (out ++ [p ++ '.' :: (q ++ rsExt)]))] none) := by
    simp [lookupChild, List.find?, Module.name]
  refine ⟨?_, ?_, ?_, ?_⟩
  · have hstep1 := push_recurse_new_leaf
      (Module.mk ['d', 'u', 'm', 'm', 'y'] out [] none) out
      (out ++ [p ++ rsExt]) p hsp_p rfl
    simp only [Module.withChildren, Module.children, List.nil_append] at hstep1
    have hinner := push_recurse_new_leaf
      (Module.mk p out [] (some (out ++ [p ++ rsExt]))) (out ++ [p])
      (out ++ [p ++ '.' :: (q ++ rsExt)]) q hsp_q rfl
    simp only [Module.withChildren, Module.children, List.nil_append] at hinner
    have hstep2 := push_recurse_into_child
      (Module.mk ['d', 'u', 'm', 'm', 'y'] out
        [Module.mk p out [] (some (out ++ [p ++ rsExt]))] none)
      out (out ++ [p ++ '.' :: (q ++ rsExt)]) (p ++ '.' :: q) p q
      (Module.mk p out [] (some (out ++ [p ++ rsExt])))
      (Module.mk p out
        [Module.mk q (out ++ [p]) []
          (some (out ++ [p ++ '.' :: (q ++ rsExt)]))]
        (some (out ++ [p ++ rsExt])))
      hsp_pq (hlook0 out (some (out ++ [p ++ rsExt]))) hinner
    simp only [Module.withChildren, Module.children, replaceChild,
      Module.name, if_pos rfl, eq_self_iff_true, if_true] at hstep2
    simp only [Module.push_file, List.getLast?_concat, rsplit_rs,
      rsplit_pq_rs, hstep1, Except.bind, hstep2]
  · have hinner := push_recurse_new_leaf
      (Module.mk p out [] none) (out ++ [p])
      (out ++ [p ++ '.' :: (q ++ rsExt)]) q hsp_q rfl
    simp only [Module.withChildren, Module.children, List.nil_append] at hinner
    have hstep1 := push_recurse_new_child
      (Module.mk ['d', 'u', 'm', 'm', 'y'] out [] none) out
      (out ++ [p ++ '.' :: (q ++ rsExt)]) (p ++ '.' :: q) p q
      (Module.mk p out
        [Module.mk q (out ++ [p]) []
          (some (out ++ [p ++ '.' :: (q ++ rsExt)]))] none)
      hsp_pq rfl hinner
    simp only [Module.withChildren, Module.children, List.nil_append] at hstep1
    have hstep2 := push_recurse_set_file
      (Module.mk ['d', 'u', 'm', 'm', 'y'] out
        [Module.mk p out
          [Module.mk q (out ++ [p]) []
            (some (out ++ [p ++ '.' :: (q ++ rsExt)]))] none] none)
      out (out ++ [p ++ rsExt]) p
      (Module.mk p out
        [Module.mk q (out ++ [p]) []
          (some (out ++ [p ++ '.' :: (q ++ rsExt)]))] none)
      hsp_p hlookQ rfl
    simp only [Module.withChildren, Module.children, replaceChild,
      Module.name, Module.withFile, if_pos rfl, eq_self_iff_true,
      if_true] at hstep2
    simp only [Module.push_file, List.getLast?_concat, rsplit_rs,
      rsplit_pq_rs, hstep1, Except.bind, hstep2]
  · have hread_q : fsRead
        (fun pp => if pp = out ++ [p ++ rsExt] then some Cp
          else if pp = out ++ [p ++ '.' :: (q ++ rsExt)] then some Cq
          else none)
        (out ++ [p ++ '.' :: (q ++ rsExt)]) = Except.ok Cq := by
      simp [fsRead, hne_ab]
    have hread_p : fsRead
        (fsWrite
          (fsRemove
            (fun pp => if pp = out ++ [p ++ rsExt] then some Cp
              else if pp = out ++ [p ++ '.' :: (q ++ rsExt)] then some Cq
              else none)
            (out ++ [p ++ '.' :: (q ++ rsExt)]))
          (out ++ [p] ++ [q ++ rsExt]) (hide_doctests Cq))
        (out ++ [p ++ rsExt]) = Except.ok Cp := by
      rw [fsRead_write_ne hne_1q, fsRead_remove_ne hne_ba]
      simp [fsRead]
    have hdumpQ : Module.dump_to_disk 2
        (Module.mk q (out ++ [p]) []
          (some (out ++ [p ++ '.' :: (q ++ rsExt)])))
        ⟨false, none, none⟩
        (fun pp => if pp = out ++ [p ++ rsExt] then some Cp
          else if pp = out ++ [p ++ '.' :: (q ++ rsExt)] then some Cq
          else none) =
        Except.ok (fsWrite
          (fsRemove
            (fun pp => if pp = out ++ [p ++ rsExt] then some Cp
              else if pp = out ++ [p ++ '.' :: (q ++ rsExt)] then some Cq
              else none)
            (out ++ [p ++ '.' :: (q ++ rsExt)]))
          (out ++ [p] ++ [q ++ rsExt]) (hide_doctests Cq)) := by
      simp only [Module.dump_to_disk, Module.children, Module.file,
        Module.name, Module.location, List.isEmpty, prependHeader,
        hread_q, hproper_q, if_true, if_false, eq_self_iff_true,
        decide_True]
    have hdumpP : Module.dump_to_disk 3
        (Module.mk p out
          [Module.mk q (out ++ [p]) []
            (some (out ++ [p ++ '.' :: (q ++ rsExt)]))]
          (some (out ++ [p ++ rsExt])))
        ⟨false, none, none⟩
        (fun pp => if pp = out ++ [p ++ rsExt] then some Cp
          else if pp = out ++ [p ++ '.' :: (q ++ rsExt)] then some Cq
          else none) =
        Except.ok (fsWrite
          (fsWrite
            (fsRemove
              (fun pp => if pp = out ++ [p ++ rsExt] then some Cp
                else if pp = out ++ [p ++ '.' :: (q ++ rsExt)] then some Cq
                else none)
              (out ++ [p ++ '.' :: (q ++ rsExt)]))
            (out ++ [p] ++ [q ++ rsExt]) (hide_doctests Cq))
          (out ++ [p ++ rsExt])
          (hide_doctests (pubModLine q ++ nlc :: Cp))) := by
      simp only [Module.dump_to_disk, dumpChildren, sortByName, insertSorted,
        List.foldr, Module.children, Module.file, Module.name,
        Module.location, List.isEmpty, prependHeader, hdumpQ,
        hproper_p, List.nil_append, decide_True, if_true,
        Bool.false_eq_true, if_false, hread_p]
    refine ⟨_, hdumpP, ?_, ?_, ?_⟩
    · simp [fsWrite]
    · simp [fsWrite, fsRemove, hne_q1]
    · simp [fsWrite, fsRemove, hne_ab, hne_2q]
  · have hmcinner := mc_push_recurse_leaf p out [] (out ++ [p])
      (out ++ [p ++ '.' :: (q ++ rsExt)]) q hsp_q
    simp only [mcInsert] at hmcinner
    have hmc1 := mc_push_recurse_new_child ['d', 'u', 'm', 'm', 'y'] out []
      out (out ++ [p ++ '.' :: (q ++ rsExt)]) (p ++ '.' :: q) p q
      (ModuleContainer.parent p out
        [ModuleContainer.node q (out ++ [p])
          (out ++ [p ++ '.' :: (q ++ rsExt)])])
      hsp_pq rfl hmcinner
    simp only [mcInsert] at hmc1
    have hmc2 := mc_push_recurse_leaf ['d', 'u', 'm', 'm', 'y'] out
      [ModuleContainer.parent p out
        [ModuleContainer.node q (out ++ [p])
          (out ++ [p ++ '.' :: (q ++ rsExt)])]]
      out (out ++ [p ++ rsExt]) p hsp_p
    simp only [mcInsert, ModuleContainer.name, if_pos rfl, eq_self_iff_true,
      if_true] at hmc2
    simp only [ModuleContainer.push_file, List.getLast?_concat, rsplit_pq_rs,
      rsplit_rs, hmc1, Except.bind, hmc2]

/-- Witness for C1: packages p and p.q at the repository root. -/
theorem module_merge_materialize_witness :
    ((Module.mk ['d', 'u', 'm', 'm', 'y'] ([] : FPath) [] none).push_file ([] : FPath)
        (([] : FPath) ++ [['p'] ++ rsExt])).bind
      (fun r => r.push_file ([] : FPath) (([] : FPath) ++ [['p'] ++ '.' :: (['q'] ++ rsExt)])) =
      Except.ok (Module.mk ['d', 'u', 'm', 'm', 'y'] ([] : FPath)
        [Module.mk ['p'] ([] : FPath)
          [Module.mk ['q'] (([] : FPath) ++ [['p']]) []
            (some (([] : FPath) ++ [['p'] ++ '.' :: (['q'] ++ rsExt)]))]
          (some (([] : FPath) ++ [['p'] ++ rsExt]))] none) ∧
    ((Module.mk ['d', 'u', 'm', 'm', 'y'] ([] : FPath) [] none).push_file ([] : FPath)
        (([] : FPath) ++ [['p'] ++ '.' :: (['q'] ++ rsExt)])).bind
      (fun r => r.push_file ([] : FPath) (([] : FPath) ++ [['p'] ++ rsExt])) =
      Except.ok (Module.mk ['d', 'u', 'm', 'm', 'y'] ([] : FPath)
        [Module.mk ['p'] ([] : FPath)
          [Module.mk ['q'] (([] : FPath) ++ [['p']]) []
            (some (([] : FPath) ++ [['p'] ++ '.' :: (['q'] ++ rsExt)]))]
          (some (([] : FPath) ++ [['p'] ++ rsExt]))] none) ∧
    (∃ fs',
      Module.dump_to_disk 3
        (Module.mk ['p'] ([] : FPath)
          [Module.mk ['q'] (([] : FPath) ++ [['p']]) []
            (some (([] : FPath) ++ [['p'] ++ '.' :: (['q'] ++ rsExt)]))]
          (some (([] : FPath) ++ [['p'] ++ rsExt])))
        ⟨false, none, none⟩
        (fun pp => if pp = ([] : FPath) ++ [['p'] ++ rsExt] then some ['x']
          else if pp = ([] : FPath) ++ [['p'] ++ '.' :: (['q'] ++ rsExt)] then some ['y']
          else none) = Except.ok fs' ∧
      fs' (([] : FPath) ++ [['p'] ++ rsExt]) =
        some (hide_doctests (pubModLine ['q'] ++ nlc :: ['x'])) ∧
      fs' (([] : FPath) ++ [['p']] ++ [['q'] ++ rsExt]) = some (hide_doctests ['y']) ∧
      fs' (([] : FPath) ++ [['p'] ++ '.' :: (['q'] ++ rsExt)]) = none) ∧
    ((ModuleContainer.parent ['d', 'u', 'm', 'm', 'y'] ([] : FPath) []).push_file ([] : FPath)
        (([] : FPath) ++ [['p'] ++ '.' :: (['q'] ++ rsExt)])).bind
      (fun r => r.push_file ([] : FPath) (([] : FPath) ++ [['p'] ++ rsExt])) =
      Except.ok (ModuleContainer.parent ['d', 'u', 'm', 'm', 'y'] ([] : FPath)
        [ModuleContainer.node ['p'] ([] : FPath) (([] : FPath) ++ [['p'] ++ rsExt])]) :=
  module_merge_materialize [] ['p'] ['q'] ['x'] ['y'] (by decide) (by decide)
    (by decide) (by decide) (by decide) (by decide)

end ProtoGen
